import Mathlib

/-!
Shallow embedding of the lean-agentic kernel and actor runtime.

Each definition mirrors one Rust item of the repository; the file is
organised source-file by source-file:
  * `Context` — src/leanr-core/src/context.rs
  * mailbox state machine — src/runtime/src/mailbox.rs
  * `LeaseManager` and `quorum` — src/runtime/src/orchestration.rs
  * `Level` / `LevelArena` — src/lean-agentic/src/level.rs
  * `TermKind` / `Arena` — src/lean-agentic/src/term.rs, arena.rs
  * `substitute` / `whnf` / `isDefEq` — src/leanr-core/src/conversion.rs
  * `Substitution` / `solveUnify` / `occursCheck` — src/leanr-core/src/unification.rs

Machine integers (u32/u64/usize ids and counters) are modelled as `Nat`:
all of them are arena indices or queue lengths that the source only
creates by incrementing from zero, so they stay far below the wrap-around
points for every property stated here.  Statistics counters of the source
(`ArenaStats`, `ConversionStats`) do not influence control flow and are
omitted.
-/

deriving instance DecidableEq for Except

namespace LeanAgentic

/-- TermId is a u32 index into the term arena (term.rs). -/
abbrev TermId := Nat

/-- LevelId is a u32 index into the level arena (level.rs). -/
abbrev LevelId := Nat

/-- SymbolId is a u32 id from the symbol table (symbol.rs). -/
abbrev SymbolId := Nat

/-- MetaVarId is a u32 metavariable id (term.rs). -/
abbrev MetaVarId := Nat

/-! ## Context (src/leanr-core/src/context.rs) -/

/-- Entry in the local context (`ContextEntry` in context.rs). -/
structure ContextEntry where
  name : SymbolId
  ty : TermId
  value : Option TermId
deriving DecidableEq

/-- Local typing context: a stack of bindings, most recent at the end of the
list (the `Vec` of the source grows at the end). -/
structure Context where
  entries : List ContextEntry
deriving DecidableEq

/-- `Context::len`. -/
def Context.len (c : Context) : Nat := c.entries.length

/-- `Context::lookup`: `self.entries.len().checked_sub(index as usize + 1)`
followed by `self.entries.get(pos)`.  `checked_sub` yields `None` exactly
when `len < index + 1`. -/
def Context.lookup (c : Context) (index : Nat) : Option ContextEntry :=
  if c.entries.length < index + 1 then none
  else c.entries.get? (c.entries.length - (index + 1))

/-- `Context::type_of`. -/
def Context.type_of (c : Context) (index : Nat) : Option TermId :=
  (c.lookup index).map (fun e => e.ty)

/-- `Context::value_of`. -/
def Context.value_of (c : Context) (index : Nat) : Option TermId :=
  (c.lookup index).bind (fun e => e.value)

/-- `Context::push_var` (builds a `ContextEntry::new`, i.e. `value = None`). -/
def Context.push_var (c : Context) (name : SymbolId) (ty : TermId) : Context :=
  ⟨c.entries ++ [⟨name, ty, none⟩]⟩

/-- C10. Context lookup is total: out-of-range indices give `none` for
`lookup`, `type_of` and `value_of`; in-range index `idx` gives the entry
stored `len - 1 - idx` positions from the bottom of the stack. -/
theorem context_lookup_total (c : Context) (idx : Nat) :
    (c.lookup idx = if idx < c.len then c.entries.get? (c.len - 1 - idx) else none)
    ∧ (c.type_of idx =
        if idx < c.len then (c.entries.get? (c.len - 1 - idx)).map (fun e => e.ty) else none)
    ∧ (c.value_of idx =
        if idx < c.len then (c.entries.get? (c.len - 1 - idx)).bind (fun e => e.value) else none) := by
  have hsub : c.entries.length - (idx + 1) = c.len - 1 - idx := by
    simp [Context.len, Nat.sub_sub, Nat.add_comm]
  have hlk : c.lookup idx =
      if idx < c.len then c.entries.get? (c.len - 1 - idx) else none := by
    by_cases h : idx < c.entries.length
    · have h2 : ¬ c.entries.length < idx + 1 := by omega
      simp [Context.lookup, Context.len, h2, hsub, h]
    · have h2 : c.entries.length < idx + 1 := by omega
      have h3 : ¬ idx < c.len := by simpa [Context.len] using h
      simp [Context.lookup, h2, h3]
  refine ⟨hlk, ?_, ?_⟩
  · rw [Context.type_of, hlk]
    by_cases h : idx < c.len <;> simp [h]
  · rw [Context.value_of, hlk]
    by_cases h : idx < c.len <;> simp [h]

/-! ## Runtime errors (src/runtime/src/lib.rs, subset used here) -/

/-- Runtime error variants reached by the modelled code paths. -/
inductive RuntimeError where
  | mailboxFull (len : Nat)
  | mailboxClosed
  | quorumNotReached (received required : Nat)
  | leaseAcquisitionFailed (reason : String)
deriving DecidableEq

/-! ## Mailbox (src/runtime/src/mailbox.rs)

The mailbox is a bounded MPSC queue with an atomic length counter shared
between sender and receiver.  The embedding gives its sequential
(interleaving) semantics: one state holds the queue contents and the
length counter; `send` and `recv` are the atomic steps the source
performs.  Payloads are `Nat`; the capability tag is erased at the send
boundary in the source (`Message::new(msg.into_payload())`) and carries no
runtime data. -/

/-- `MailboxConfig`. -/
structure MailboxConfig where
  capacity : Nat
  highWater : Nat
  lowWater : Nat
deriving DecidableEq

/-- Mailbox state: the flume queue plus the shared `len` counter. -/
structure MailboxState where
  queue : List Nat
  len : Nat
deriving DecidableEq

/-- `MailboxSender::send`: load the length; if it exceeds `high_water`,
fail with `MailboxFull(current_len)`; otherwise enqueue and increment the
counter.  (`try_send` performs the identical check and enqueue; the two
differ only in how they wait for queue capacity, which the sequential
model does not exercise.) -/
def mailboxSend (cfg : MailboxConfig) (s : MailboxState) (m : Nat) :
    Except RuntimeError MailboxState :=
  if cfg.highWater < s.len then .error (.mailboxFull s.len)
  else .ok ⟨s.queue ++ [m], s.len + 1⟩

/-- `Mailbox::recv`: dequeue and decrement the counter; a drained queue
whose senders are gone yields `MailboxClosed` (the sequential model treats
an empty queue as that terminal case). -/
def mailboxRecv (s : MailboxState) : Except RuntimeError (MailboxState × Nat) :=
  match s.queue with
  | [] => .error .mailboxClosed
  | m :: rest => .ok (⟨rest, s.len - 1⟩, m)

/-- Concrete trace used to refute C7: capacity 8, high water 2, low water 1. -/
def c7Config : MailboxConfig := ⟨8, 2, 1⟩

/-- State after three successful sends under `c7Config` (length 3 > high water). -/
def c7Full : MailboxState := ⟨[10, 11, 12], 3⟩

/-- C7 counterexample.  Under `{capacity 8, high_water 2, low_water 1}` the
state with length 3 is reachable by three sends and has exceeded the high
water mark (a further send fails); after a single `recv` the length is 2,
which is still above `low_water = 1`, yet the next `send` succeeds — so
sends do NOT keep failing until the length has dropped to `low_water`. -/
theorem mailbox_send_after_high_water_counterexample :
    mailboxSend c7Config ⟨[], 0⟩ 10 = .ok ⟨[10], 1⟩
    ∧ mailboxSend c7Config ⟨[10], 1⟩ 11 = .ok ⟨[10, 11], 2⟩
    ∧ mailboxSend c7Config ⟨[10, 11], 2⟩ 12 = .ok c7Full
    ∧ c7Config.highWater < c7Full.len
    ∧ mailboxSend c7Config c7Full 13 = .error (.mailboxFull 3)
    ∧ mailboxRecv c7Full = .ok (⟨[11, 12], 2⟩, 10)
    ∧ c7Config.lowWater < 2
    ∧ mailboxSend c7Config ⟨[11, 12], 2⟩ 13 = .ok ⟨[11, 12, 13], 3⟩ := by
  decide

/-- C7 amended: backpressure has no hysteresis.  A `send` (or `try_send`)
fails, with `MailboxFull` carrying the loaded length, exactly when the
length at the moment of the send exceeds `high_water`; it succeeds again
as soon as the length is at most `high_water`.  `low_water` is never
consulted by `send`. -/
theorem mailbox_send_iff_at_most_high_water (cfg : MailboxConfig) (s : MailboxState) (m : Nat) :
    ((∃ s2, mailboxSend cfg s m = .ok s2) ↔ s.len ≤ cfg.highWater)
    ∧ (cfg.highWater < s.len → mailboxSend cfg s m = .error (.mailboxFull s.len))
    ∧ (s.len ≤ cfg.highWater → mailboxSend cfg s m = .ok ⟨s.queue ++ [m], s.len + 1⟩) := by
  refine ⟨⟨?_, ?_⟩, ?_, ?_⟩
  · intro ⟨s2, h⟩
    by_contra hlt
    have h2 : cfg.highWater < s.len := by omega
    simp [mailboxSend, h2] at h
  · intro h
    have h2 : ¬ cfg.highWater < s.len := by omega
    exact ⟨⟨s.queue ++ [m], s.len + 1⟩, by simp [mailboxSend, h2]⟩
  · intro h
    simp [mailboxSend, h]
  · intro h
    have h2 : ¬ cfg.highWater < s.len := by omega
    simp [mailboxSend, h2]

/-- Witness for `mailbox_send_iff_at_most_high_water` at a concrete
over-watermark state. -/
theorem mailbox_send_iff_at_most_high_water_witness :
    mailboxSend ⟨8, 2, 1⟩ ⟨[1, 2, 3], 3⟩ 5 = .error (.mailboxFull 3) :=
  (mailbox_send_iff_at_most_high_water ⟨8, 2, 1⟩ ⟨[1, 2, 3], 3⟩ 5).2.1 (by decide)

/-! ## LeaseManager (src/runtime/src/orchestration.rs)

`LeaseManager` guards a `HashMap<String, Lease>` behind one lock; the
embedding keeps the map as an association list with unique keys and
threads the lock-protected critical sections as atomic steps.  Time is the
monotone clock read by `tokio::time::Instant::now()`, passed in
explicitly; `allocate_agent_id` is the global id counter, modelled by the
`nextId` field (the source allocates the holder id before checking for a
conflict, so the counter advances even on a failed acquire). -/

/-- One lease record: holder id and expiry instant (`Lease` without the
redundant `resource` copy the map key already carries). -/
structure LeaseEntry where
  holder : Nat
  expires : Nat
deriving DecidableEq

/-- Lease manager state: the resource map plus the global id counter. -/
structure LeaseManager where
  leases : List (String × LeaseEntry)
  nextId : Nat
deriving DecidableEq

/-- Association-list lookup (HashMap::get). -/
def assocLookup {α β : Type} [DecidableEq α] : List (α × β) → α → Option β
  | [], _ => none
  | (k, v) :: rest, k2 => if k = k2 then some v else assocLookup rest k2

/-- Association-list insert-or-replace (HashMap::insert). -/
def assocInsert {α β : Type} [DecidableEq α] : List (α × β) → α → β → List (α × β)
  | [], k, v => [(k, v)]
  | (k1, v1) :: rest, k, v =>
    if k1 = k then (k1, v) :: rest else (k1, v1) :: assocInsert rest k v

/-- Association-list removal (HashMap::remove). -/
def assocRemove {α β : Type} [DecidableEq α] : List (α × β) → α → List (α × β)
  | [], _ => []
  | (k1, v1) :: rest, k =>
    if k1 = k then rest else (k1, v1) :: assocRemove rest k

/-- `LeaseManager::acquire`: allocate a holder id and compute the expiry;
fail if an existing lease on the resource has `expires > now`; otherwise
insert (overwriting an expired lease or filling an empty slot). -/
def LeaseManager.acquire (M : LeaseManager) (resource : String) (ttl now : Nat) :
    LeaseManager × Except RuntimeError Nat :=
  let holder := M.nextId
  let expires := now + ttl
  match assocLookup M.leases resource with
  | some existing =>
    if now < existing.expires then
      ({ M with nextId := M.nextId + 1 },
        .error (.leaseAcquisitionFailed "Resource already leased"))
    else
      ({ leases := assocInsert M.leases resource ⟨holder, expires⟩, nextId := M.nextId + 1 },
        .ok holder)
  | none =>
      ({ leases := assocInsert M.leases resource ⟨holder, expires⟩, nextId := M.nextId + 1 },
        .ok holder)

/-- `LeaseManager::release`: remove the entry iff the holder matches; a
mismatching holder is an error, an absent entry is silently `Ok`. -/
def LeaseManager.release (M : LeaseManager) (resource : String) (holder : Nat) :
    LeaseManager × Except RuntimeError Unit :=
  match assocLookup M.leases resource with
  | some lease =>
    if lease.holder = holder then
      ({ M with leases := assocRemove M.leases resource }, .ok ())
    else
      (M, .error (.leaseAcquisitionFailed "Not the lease holder"))
  | none => (M, .ok ())

/-- Keys of an association list. -/
def assocKeys {α β : Type} (l : List (α × β)) : List α := l.map Prod.fst

theorem assocKeys_nil {α β : Type} : assocKeys ([] : List (α × β)) = [] := rfl

theorem assocKeys_cons {α β : Type} (p : α × β) (l : List (α × β)) :
    assocKeys (p :: l) = p.1 :: assocKeys l := rfl

theorem mem_assocKeys_of_mem {α β : Type} {p : α × β} {l : List (α × β)} (h : p ∈ l) :
    p.1 ∈ assocKeys l := List.mem_map_of_mem Prod.fst h

theorem assocLookup_eq_none_iff {α β : Type} [DecidableEq α] (l : List (α × β)) (k : α) :
    assocLookup l k = none ↔ k ∉ assocKeys l := by
  induction l with
  | nil => simp [assocLookup, assocKeys_nil]
  | cons hd tl ih =>
    obtain ⟨k1, v1⟩ := hd
    rw [assocKeys_cons, List.mem_cons]
    by_cases h : k1 = k
    · subst h
      simp [assocLookup]
    · rw [assocLookup, if_neg h, ih]
      constructor
      · intro hn
        rintro (he | hm)
        · exact h he.symm
        · exact hn hm
      · intro hn hm
        exact hn (Or.inr hm)

theorem assocLookup_insert_self {α β : Type} [DecidableEq α] (l : List (α × β)) (k : α) (v : β) :
    assocLookup (assocInsert l k v) k = some v := by
  induction l with
  | nil => simp [assocInsert, assocLookup]
  | cons hd tl ih =>
    obtain ⟨k1, v1⟩ := hd
    by_cases h : k1 = k
    · simp [assocInsert, assocLookup, h]
    · simp [assocInsert, assocLookup, h, ih]

theorem assocLookup_insert_ne {α β : Type} [DecidableEq α] (l : List (α × β)) (k k2 : α) (v : β)
    (h : k ≠ k2) : assocLookup (assocInsert l k v) k2 = assocLookup l k2 := by
  induction l with
  | nil => simp [assocInsert, assocLookup, h]
  | cons hd tl ih =>
    obtain ⟨k1, v1⟩ := hd
    by_cases h1 : k1 = k
    · subst h1
      simp [assocInsert, assocLookup, h]
    · simp [assocInsert, assocLookup, h1, ih]

theorem assocKeys_insert_subset {α β : Type} [DecidableEq α] (l : List (α × β)) (k x : α) (v : β)
    (hx : x ∈ assocKeys (assocInsert l k v)) : x ∈ assocKeys l ∨ x = k := by
  induction l with
  | nil =>
    rw [assocInsert, assocKeys_cons, assocKeys_nil] at hx
    rcases List.mem_cons.mp hx with h | h
    · exact Or.inr h
    · cases h
  | cons hd tl ih =>
    obtain ⟨k1, v1⟩ := hd
    by_cases h1 : k1 = k
    · rw [assocInsert, if_pos h1, assocKeys_cons] at hx
      rw [assocKeys_cons]
      rcases List.mem_cons.mp hx with h | h
      · exact Or.inl (List.mem_cons.mpr (Or.inl h))
      · exact Or.inl (List.mem_cons.mpr (Or.inr h))
    · rw [assocInsert, if_neg h1, assocKeys_cons] at hx
      rw [assocKeys_cons]
      rcases List.mem_cons.mp hx with h | h
      · exact Or.inl (List.mem_cons.mpr (Or.inl h))
      · rcases ih h with h2 | h2
        · exact Or.inl (List.mem_cons.mpr (Or.inr h2))
        · exact Or.inr h2

theorem assocInsert_nodup {α β : Type} [DecidableEq α] (l : List (α × β)) (k : α) (v : β)
    (hnd : (assocKeys l).Nodup) : (assocKeys (assocInsert l k v)).Nodup := by
  induction l with
  | nil => simp [assocInsert, assocKeys_cons, assocKeys_nil]
  | cons hd tl ih =>
    obtain ⟨k1, v1⟩ := hd
    rw [assocKeys_cons, List.nodup_cons] at hnd
    by_cases h1 : k1 = k
    · rw [assocInsert, if_pos h1, assocKeys_cons, List.nodup_cons]
      exact hnd
    · rw [assocInsert, if_neg h1, assocKeys_cons, List.nodup_cons]
      refine ⟨?_, ih hnd.2⟩
      intro hx
      rcases assocKeys_insert_subset tl k k1 v hx with h2 | h2
      · exact hnd.1 h2
      · exact h1 h2

theorem assocRemove_sublist {α β : Type} [DecidableEq α] (l : List (α × β)) (k : α) :
    (assocRemove l k).Sublist l := by
  induction l with
  | nil => simp [assocRemove]
  | cons hd tl ih =>
    obtain ⟨k1, v1⟩ := hd
    by_cases h1 : k1 = k
    · rw [assocRemove, if_pos h1]
      exact List.sublist_cons_self _ _
    · rw [assocRemove, if_neg h1]
      exact ih.cons₂ (k1, v1)

theorem assocRemove_nodup {α β : Type} [DecidableEq α] (l : List (α × β)) (k : α)
    (hnd : (assocKeys l).Nodup) : (assocKeys (assocRemove l k)).Nodup :=
  List.Nodup.sublist (List.Sublist.map Prod.fst (assocRemove_sublist l k)) hnd

theorem assocLookup_remove_self {α β : Type} [DecidableEq α] (l : List (α × β)) (k : α)
    (hnd : (assocKeys l).Nodup) : assocLookup (assocRemove l k) k = none := by
  induction l with
  | nil => simp [assocRemove, assocLookup]
  | cons hd tl ih =>
    obtain ⟨k1, v1⟩ := hd
    rw [assocKeys_cons, List.nodup_cons] at hnd
    by_cases h1 : k1 = k
    · subst h1
      rw [assocRemove, if_pos rfl, assocLookup_eq_none_iff]
      exact hnd.1
    · rw [assocRemove, if_neg h1, assocLookup, if_neg h1]
      exact ih hnd.2

theorem filter_key_length_le_one {α β : Type} [DecidableEq α] (l : List (α × β)) (r : α)
    (hnd : (assocKeys l).Nodup) :
    (l.filter (fun p => p.1 = r)).length ≤ 1 := by
  induction l with
  | nil => simp
  | cons hd tl ih =>
    obtain ⟨k1, v1⟩ := hd
    rw [assocKeys_cons, List.nodup_cons] at hnd
    by_cases h1 : k1 = r
    · subst h1
      have hempty : tl.filter (fun p => p.1 = k1) = [] := by
        rw [List.filter_eq_nil_iff]
        intro p hp
        simp only [decide_eq_true_eq]
        intro hkey
        exact hnd.1 (by rw [← hkey]; exact @mem_assocKeys_of_mem _ _ p tl hp)
      simp [List.filter, hempty]
    · simpa [List.filter, h1] using ih hnd.2

/-- Leases on `r` that are not expired at `now` (used to state P12). -/
def LeaseManager.activeLeases (M : LeaseManager) (r : String) (now : Nat) :
    List (String × LeaseEntry) :=
  M.leases.filter (fun p => p.1 = r && now < p.2.expires)

/-- C8. Lease exclusivity and the acquire/release contract.  For a manager
whose map has unique resource keys (the HashMap invariant): each resource
has at most one non-expired lease; `acquire` fails exactly when an
existing non-expired lease binds the resource and otherwise installs the
fresh holder `M.nextId` with expiry `now + ttl`; `release` removes the
entry iff the given holder matches (a mismatch errors without removal, an
absent entry is a no-op success); both operations preserve key
uniqueness. -/
theorem lease_manager_exclusive (M : LeaseManager) (r : String) (ttl now holder : Nat)
    (hnd : (assocKeys M.leases).Nodup) :
    (M.activeLeases r now).length ≤ 1
    ∧ ((M.acquire r ttl now).2 = .error (.leaseAcquisitionFailed "Resource already leased")
        ↔ ∃ e, assocLookup M.leases r = some e ∧ now < e.expires)
    ∧ ((∀ e, assocLookup M.leases r = some e → e.expires ≤ now) →
        (M.acquire r ttl now).2 = .ok M.nextId
        ∧ assocLookup (M.acquire r ttl now).1.leases r = some ⟨M.nextId, now + ttl⟩)
    ∧ (∀ e, assocLookup M.leases r = some e →
        (e.holder = holder →
          (M.release r holder).2 = .ok ()
          ∧ assocLookup (M.release r holder).1.leases r = none)
        ∧ (e.holder ≠ holder →
          (M.release r holder).2 = .error (.leaseAcquisitionFailed "Not the lease holder")
          ∧ (M.release r holder).1 = M))
    ∧ (assocLookup M.leases r = none →
        (M.release r holder).2 = .ok () ∧ (M.release r holder).1 = M)
    ∧ (assocKeys (M.acquire r ttl now).1.leases).Nodup
    ∧ (assocKeys (M.release r holder).1.leases).Nodup := by
  refine ⟨?_, ?_, ?_, ?_, ?_, ?_, ?_⟩
  · calc (M.activeLeases r now).length
        ≤ (M.leases.filter (fun p => p.1 = r)).length := by
          apply List.Sublist.length_le
          apply List.monotone_filter_right
          intro p hp
          simp at hp ⊢
          exact hp.1
      _ ≤ 1 := filter_key_length_le_one M.leases r hnd
  · constructor
    · intro h
      rcases he : assocLookup M.leases r with _ | e
      · simp [LeaseManager.acquire, he] at h
      · by_cases hexp : now < e.expires
        · exact ⟨e, rfl, hexp⟩
        · simp [LeaseManager.acquire, he, hexp] at h
    · rintro ⟨e, he, hexp⟩
      simp [LeaseManager.acquire, he, hexp]
  · intro hall
    rcases he : assocLookup M.leases r with _ | e
    · exact ⟨by simp [LeaseManager.acquire, he],
        by simp [LeaseManager.acquire, he, assocLookup_insert_self]⟩
    · have hexp : ¬ now < e.expires := by
        have := hall e he
        omega
      exact ⟨by simp [LeaseManager.acquire, he, hexp],
        by simp [LeaseManager.acquire, he, hexp, assocLookup_insert_self]⟩
  · intro e he
    constructor
    · intro hh
      exact ⟨by simp [LeaseManager.release, he, hh],
        by simp [LeaseManager.release, he, hh, assocLookup_remove_self _ _ hnd]⟩
    · intro hh
      exact ⟨by simp [LeaseManager.release, he, hh], by simp [LeaseManager.release, he, hh]⟩
  · intro he
    exact ⟨by simp [LeaseManager.release, he], by simp [LeaseManager.release, he]⟩
  · rcases he : assocLookup M.leases r with _ | e
    · simpa [LeaseManager.acquire, he] using assocInsert_nodup M.leases r _ hnd
    · by_cases hexp : now < e.expires
      · simpa [LeaseManager.acquire, he, hexp] using hnd
      · simpa [LeaseManager.acquire, he, hexp] using assocInsert_nodup M.leases r _ hnd
  · rcases he : assocLookup M.leases r with _ | e
    · simpa [LeaseManager.release, he] using hnd
    · by_cases hh : e.holder = holder
      · simpa [LeaseManager.release, he, hh] using assocRemove_nodup M.leases r hnd
      · simpa [LeaseManager.release, he, hh] using hnd

/-- Witness for `lease_manager_exclusive` at a concrete one-lease manager. -/
theorem lease_manager_exclusive_witness :
    (assocKeys (⟨[("r", ⟨7, 50⟩)], 8⟩ : LeaseManager).leases).Nodup
    ∧ ((⟨[("r", ⟨7, 50⟩)], 8⟩ : LeaseManager).acquire "r" 10 20).2
        = .error (.leaseAcquisitionFailed "Resource already leased") := by
  have h := lease_manager_exclusive ⟨[("r", ⟨7, 50⟩)], 8⟩ "r" 10 20 7 (by decide)
  exact ⟨by decide, h.2.1.mpr ⟨⟨7, 50⟩, by decide, by decide⟩⟩

/-! ## Quorum (src/runtime/src/orchestration.rs, `quorum`)

The source fans the request out through `tokio::spawn` tasks that forward
a unit signal into a bounded channel when their send succeeds, then loops
receiving with `timeout_at(deadline, …)` until `threshold` signals have
arrived.  The embedding abstracts the asynchronous environment into the
sequence of outcomes the receive loop observes, in order: a signal
arriving before the deadline, the channel closing, or the deadline
firing.  An exhausted event list behaves like the deadline firing (with
no further signal the blocked `recv` can only end by timeout).
Response values have type `Nat` (the source is generic in `R`). -/

/-- One observed outcome of `timeout_at(deadline, rx.recv_async())`. -/
inductive QEvent where
  | sig
  | closed
  | timedOut
deriving DecidableEq

/-- The `while received < threshold` receive loop of `quorum`; returns the
final `received` count on success. -/
def quorumLoop (threshold : Nat) : Nat → List QEvent → Except RuntimeError Nat
  | received, events =>
    if received < threshold then
      match events with
      | .sig :: rest => quorumLoop threshold (received + 1) rest
      | .closed :: _ => .error (.quorumNotReached received threshold)
      | .timedOut :: _ => .error (.quorumNotReached received threshold)
      | [] => .error (.quorumNotReached received threshold)
    else .ok received

/-- `quorum`: early failure when `threshold > agents.len()`; otherwise run
the receive loop.  `responses` is the `Vec::new()` of the source, which is
returned on success — the loop only counts unit signals and never pushes a
response into it. -/
def quorum (numAgents threshold : Nat) (events : List QEvent) :
    Except RuntimeError (List Nat) :=
  if numAgents < threshold then .error (.quorumNotReached 0 threshold)
  else
    let responses : List Nat := []
    match quorumLoop threshold 0 events with
    | .ok _ => .ok responses
    | .error e => .error e

/-- C9.  One agent, threshold 1, a response signal arriving before the
deadline: `quorum` succeeds, but the vector it returns is empty — the
collected responses are never returned (the source's `responses` vector is
never pushed to), contradicting the claim that success carries the
at-least-threshold received responses. -/
theorem quorum_returns_empty_responses :
    quorum 1 1 [QEvent.sig] = .ok ([] : List Nat)
    ∧ ([] : List Nat).length < 1 := by
  decide

/-! ## Universe levels (src/lean-agentic/src/level.rs)

`Level` is the shallow interned representation of the source: its
sub-levels are `LevelId` indices into the arena, not nested trees.
`LevelArena` keeps the `Vec<Level>`; the `HashMap<Level, LevelId>` cache
of the source always maps an interned value to the unique index that
holds it (`intern` consults the cache before pushing), so the cache
lookup is modelled as the first index of the value in the vector. -/

/-- Universe level expressions (`Level` in level.rs). -/
inductive Level where
  | zero
  | const (n : Nat)
  | param (n : Nat)
  | succ (l : LevelId)
  | max (a b : LevelId)
  | imax (a b : LevelId)
deriving DecidableEq

/-- Sub-level ids referenced by one interned level. -/
def Level.children : Level → List Nat
  | .succ l => [l]
  | .max a b => [a, b]
  | .imax a b => [a, b]
  | _ => []

/-- `Level::from_u32`. -/
def Level.from_u32 (n : Nat) : Level := if n = 0 then .zero else .const n

/-- First index of an element in a list (the cache lookup, see above). -/
def firstIdx {α : Type} [DecidableEq α] : List α → α → Option Nat
  | [], _ => none
  | x :: xs, a => if x = a then some 0 else (firstIdx xs a).map (· + 1)

theorem firstIdx_get {α : Type} [DecidableEq α] (l : List α) (a : α) :
    ∀ i, firstIdx l a = some i → l.get? i = some a := by
  induction l with
  | nil => intro i h; simp [firstIdx] at h
  | cons x xs ih =>
    intro i h
    by_cases hx : x = a
    · rw [firstIdx, if_pos hx] at h
      cases h
      simpa using hx
    · rw [firstIdx, if_neg hx] at h
      rcases hi : firstIdx xs a with _ | j
      · rw [hi] at h; cases h
      · rw [hi] at h
        simp at h
        subst h
        simpa using ih j hi

theorem firstIdx_none {α : Type} [DecidableEq α] (l : List α) (a : α)
    (h : firstIdx l a = none) : a ∉ l := by
  induction l with
  | nil => simp
  | cons x xs ih =>
    by_cases hx : x = a
    · rw [firstIdx, if_pos hx] at h; cases h
    · rw [firstIdx, if_neg hx] at h
      rcases hi : firstIdx xs a with _ | j
      · intro hm
        rcases List.mem_cons.mp hm with he | hm2
        · exact hx he.symm
        · exact ih hi hm2
      · rw [hi] at h; simp at h

theorem firstIdx_of_get_nodup {α : Type} [DecidableEq α] (l : List α) (a : α) (i : Nat)
    (hnd : l.Nodup) (h : l.get? i = some a) : firstIdx l a = some i := by
  induction l generalizing i with
  | nil => simp at h
  | cons x xs ih =>
    rw [List.nodup_cons] at hnd
    cases i with
    | zero =>
      simp at h
      rw [firstIdx, if_pos h]
    | succ j =>
      have h2 : xs.get? j = some a := h
      have hx : x ≠ a := by
        intro he
        exact hnd.1 (he ▸ List.get?_mem h2)
      rw [firstIdx, if_neg hx, ih j hnd.2 h2]
      rfl

/-- Arena for interning universe levels (`LevelArena` in level.rs). -/
structure LevelArena where
  levels : List Level
deriving DecidableEq

/-- `LevelArena::get`. -/
def LevelArena.get (A : LevelArena) (id : Nat) : Option Level := A.levels.get? id

/-- `LevelArena::intern`: return the cached id when the value is present,
else push and record the new dense id. -/
def LevelArena.intern (A : LevelArena) (l : Level) : LevelArena × Nat :=
  match firstIdx A.levels l with
  | some id => (A, id)
  | none => (⟨A.levels ++ [l]⟩, A.levels.length)

/-- `LevelArena::zero`. -/
def LevelArena.zero (A : LevelArena) : LevelArena × Nat := A.intern .zero

/-- `LevelArena::constant` (via `Level::from_u32`). -/
def LevelArena.constant (A : LevelArena) (n : Nat) : LevelArena × Nat :=
  A.intern (Level.from_u32 n)

/-- `LevelArena::param`. -/
def LevelArena.param (A : LevelArena) (n : Nat) : LevelArena × Nat := A.intern (.param n)

/-- `LevelArena::succ`. -/
def LevelArena.succ (A : LevelArena) (id : Nat) : LevelArena × Nat := A.intern (.succ id)

/-- `LevelArena::max`. -/
def LevelArena.max (A : LevelArena) (a b : Nat) : LevelArena × Nat := A.intern (.max a b)

/-- `LevelArena::imax`. -/
def LevelArena.imax (A : LevelArena) (a b : Nat) : LevelArena × Nat := A.intern (.imax a b)

/-- `LevelArena::new` pre-interns `Zero` at id 0. -/
def LevelArena.new : LevelArena := ⟨[.zero]⟩

/-- Well-formedness of the arena: every stored level only references
strictly earlier ids.  This is an invariant of every arena reachable
through the public constructors (ids are handed out by the arena itself
and `intern` appends at the end), and it is what makes the source's
recursive `normalize` terminate. -/
def LevelArena.WF (A : LevelArena) : Prop :=
  ∀ i l, A.get i = some l → ∀ c ∈ l.children, c < i

/-- Decidable bounded form of `LevelArena.WF` for concrete witnesses. -/
def LevelArena.wfB (A : LevelArena) : Bool :=
  (List.range A.levels.length).all fun i =>
    match A.levels.get? i with
    | some l => l.children.all (fun c => decide (c < i))
    | none => true

theorem LevelArena.wfB_imp_WF {A : LevelArena} (h : A.wfB = true) : A.WF := by
  intro i l hg c hc
  have hi : i < A.levels.length := by
    have := List.get?_eq_some.mp hg
    exact this.1
  have hall := List.all_eq_true.mp h i (List.mem_range.mpr hi)
  rw [LevelArena.get] at hg
  rw [hg] at hall
  have := List.all_eq_true.mp hall c hc
  exact of_decide_eq_true this

/-- `normalize` (level.rs): rewrite bottom-up, collapsing `Succ` over a
constant, `Max`/`IMax` of two constants, and `IMax(_, Zero)`.  The
recursion of the source follows child ids, which the arena invariant
makes strictly decreasing; the guarded `else` branches are unreachable on
well-formed arenas (the Rust code would recurse unboundedly there). -/
def LevelArena.normalize (A : LevelArena) (id : Nat) : LevelArena × Nat :=
  match A.get id with
  | some (.succ inner) =>
    if h : inner < id then
      let r := A.normalize inner
      match r.1.get r.2 with
      | some (.const n) => r.1.constant (n + 1)
      | _ => r.1.succ r.2
    else (A, id)
  | some (.max a b) =>
    if h : a < id ∧ b < id then
      let ra := A.normalize a
      let rb := ra.1.normalize b
      match rb.1.get ra.2, rb.1.get rb.2 with
      | some (.const n), some (.const m) => rb.1.constant (Nat.max n m)
      | _, _ => rb.1.max ra.2 rb.2
    else (A, id)
  | some (.imax a b) =>
    if h : a < id ∧ b < id then
      let ra := A.normalize a
      let rb := ra.1.normalize b
      match rb.1.get rb.2 with
      | some .zero => rb.1.zero
      | _ =>
        match rb.1.get ra.2, rb.1.get rb.2 with
        | some (.const n), some (.const m) => rb.1.constant (Nat.max n m)
        | _, _ => rb.1.imax ra.2 rb.2
    else (A, id)
  | some _ => (A, id)
  | none => (A, id)
termination_by id
decreasing_by
  · exact h
  · exact h.1
  · exact h.2
  · exact h.1
  · exact h.2

/-- The arena only grows by appending (`intern` either finds or pushes). -/
def LevelArena.ExtendsTo (A A2 : LevelArena) : Prop :=
  ∃ t, A2.levels = A.levels ++ t

theorem LevelArena.extendsTo_refl (A : LevelArena) : A.ExtendsTo A := ⟨[], by simp⟩

theorem LevelArena.extendsTo_trans {A B C : LevelArena}
    (h1 : A.ExtendsTo B) (h2 : B.ExtendsTo C) : A.ExtendsTo C := by
  obtain ⟨t1, h1⟩ := h1
  obtain ⟨t2, h2⟩ := h2
  exact ⟨t1 ++ t2, by rw [h2, h1, List.append_assoc]⟩

theorem LevelArena.extendsTo_length {A B : LevelArena} (h : A.ExtendsTo B) :
    A.levels.length ≤ B.levels.length := by
  obtain ⟨t, ht⟩ := h
  simp [ht]

theorem LevelArena.get_lt_length {A : LevelArena} {i : Nat} {l : Level}
    (h : A.get i = some l) : i < A.levels.length :=
  (List.get?_eq_some.mp h).1

theorem LevelArena.extendsTo_get {A B : LevelArena} (h : A.ExtendsTo B) {i : Nat}
    (hi : i < A.levels.length) : B.get i = A.get i := by
  obtain ⟨t, ht⟩ := h
  rw [LevelArena.get, LevelArena.get, ht, List.get?_append hi]

theorem LevelArena.extendsTo_get_some {A B : LevelArena} (h : A.ExtendsTo B) {i : Nat}
    {l : Level} (hg : A.get i = some l) : B.get i = some l := by
  rw [LevelArena.extendsTo_get h (LevelArena.get_lt_length hg)]
  exact hg

theorem LevelArena.intern_extends (A : LevelArena) (l : Level) :
    A.ExtendsTo (A.intern l).1 := by
  rw [LevelArena.intern]
  rcases h : firstIdx A.levels l with _ | i
  · exact ⟨[l], rfl⟩
  · exact LevelArena.extendsTo_refl A

theorem LevelArena.intern_get_level (A : LevelArena) (l : Level) :
    (A.intern l).1.get (A.intern l).2 = some l := by
  rw [LevelArena.intern]
  rcases h : firstIdx A.levels l with _ | i
  · simpa [LevelArena.get] using List.get?_concat_length A.levels l
  · simpa [LevelArena.get] using firstIdx_get A.levels l i h

theorem LevelArena.intern_lt (A : LevelArena) (l : Level) :
    (A.intern l).2 < (A.intern l).1.levels.length :=
  LevelArena.get_lt_length (LevelArena.intern_get_level A l)

theorem LevelArena.intern_nodup_levels (A : LevelArena) (l : Level) (hnd : A.levels.Nodup) :
    (A.intern l).1.levels.Nodup := by
  rw [LevelArena.intern]
  rcases h : firstIdx A.levels l with _ | i
  · have hmem := firstIdx_none A.levels l h
    rw [List.nodup_append]
    refine ⟨hnd, List.nodup_singleton l, ?_⟩
    intro a ha hb
    simp at hb
    subst hb
    exact hmem ha
  · exact hnd

theorem LevelArena.intern_WF (A : LevelArena) (l : Level) (hw : A.WF)
    (hc : ∀ c ∈ l.children, c < A.levels.length) : (A.intern l).1.WF := by
  rw [LevelArena.intern]
  rcases h : firstIdx A.levels l with _ | i
  · intro i l2 hg c hcc
    have hlen := LevelArena.get_lt_length hg
    simp at hlen
    rcases Nat.lt_or_ge i A.levels.length with hi | hi
    · have : A.get i = some l2 := by
        rw [LevelArena.get] at hg ⊢
        rwa [List.get?_append hi] at hg
      exact hw i l2 this c hcc
    · have hieq : i = A.levels.length := by omega
      subst hieq
      have : l2 = l := by
        rw [LevelArena.get] at hg
        have := List.get?_concat_length A.levels l
        rw [this] at hg
        exact (Option.some_injective _ hg).symm
      subst this
      exact hc c hcc
  · exact hw

theorem LevelArena.intern_found (A : LevelArena) (l : Level) (i : Nat)
    (hnd : A.levels.Nodup) (hg : A.get i = some l) : A.intern l = (A, i) := by
  rw [LevelArena.intern, firstIdx_of_get_nodup A.levels l i hnd hg]

theorem LevelArena.normalize_eq_base {A : LevelArena} {i : Nat} {l : Level}
    (hg : A.get i = some l) (hb : l.children = []) : A.normalize i = (A, i) := by
  rw [LevelArena.normalize.eq_def, hg]
  cases l with
  | zero => rfl
  | const n => rfl
  | param n => rfl
  | succ x => simp [Level.children] at hb
  | max a b => simp [Level.children] at hb
  | imax a b => simp [Level.children] at hb

theorem LevelArena.normalize_eq_none {A : LevelArena} {i : Nat}
    (hg : A.get i = none) : A.normalize i = (A, i) := by
  rw [LevelArena.normalize.eq_def, hg]

theorem LevelArena.normalize_eq_succ {A : LevelArena} {i n : Nat}
    (hg : A.get i = some (.succ n)) (hlt : n < i) :
    A.normalize i =
      (match (A.normalize n).1.get (A.normalize n).2 with
       | some (.const m) => (A.normalize n).1.constant (m + 1)
       | _ => (A.normalize n).1.succ (A.normalize n).2) := by
  rw [LevelArena.normalize.eq_def, hg]
  simp only [dif_pos hlt]

theorem LevelArena.normalize_eq_max {A : LevelArena} {i a b : Nat}
    (hg : A.get i = some (.max a b)) (hlt : a < i ∧ b < i) :
    A.normalize i =
      (match ((A.normalize a).1.normalize b).1.get (A.normalize a).2,
             ((A.normalize a).1.normalize b).1.get ((A.normalize a).1.normalize b).2 with
       | some (.const n), some (.const m) =>
           ((A.normalize a).1.normalize b).1.constant (Nat.max n m)
       | _, _ => ((A.normalize a).1.normalize b).1.max (A.normalize a).2
           ((A.normalize a).1.normalize b).2) := by
  rw [LevelArena.normalize.eq_def, hg]
  simp only [dif_pos hlt]

theorem LevelArena.normalize_eq_imax {A : LevelArena} {i a b : Nat}
    (hg : A.get i = some (.imax a b)) (hlt : a < i ∧ b < i) :
    A.normalize i =
      (match ((A.normalize a).1.normalize b).1.get ((A.normalize a).1.normalize b).2 with
       | some .zero => ((A.normalize a).1.normalize b).1.zero
       | _ =>
         match ((A.normalize a).1.normalize b).1.get (A.normalize a).2,
               ((A.normalize a).1.normalize b).1.get ((A.normalize a).1.normalize b).2 with
         | some (.const n), some (.const m) =>
             ((A.normalize a).1.normalize b).1.constant (Nat.max n m)
         | _, _ => ((A.normalize a).1.normalize b).1.imax (A.normalize a).2
             ((A.normalize a).1.normalize b).2) := by
  rw [LevelArena.normalize.eq_def, hg]
  simp only [dif_pos hlt]

/-- Characterisation of the ids `normalize` returns: the stored level
triggers none of the rewrite rules of level.rs. -/
inductive IsNormal (A : LevelArena) : Nat → Prop where
  | base (i : Nat) (l : Level) (hg : A.get i = some l) (hb : l.children = []) :
      IsNormal A i
  | succN (i n : Nat) (hg : A.get i = some (.succ n)) (hn : IsNormal A n)
      (hc : ∀ m, A.get n ≠ some (.const m)) : IsNormal A i
  | maxN (i a b : Nat) (hg : A.get i = some (.max a b)) (ha : IsNormal A a)
      (hb : IsNormal A b)
      (hnc : ∀ n m, ¬ (A.get a = some (.const n) ∧ A.get b = some (.const m))) :
      IsNormal A i
  | imaxN (i a b : Nat) (hg : A.get i = some (.imax a b)) (ha : IsNormal A a)
      (hb : IsNormal A b) (hz : A.get b ≠ some .zero)
      (hnc : ∀ n m, ¬ (A.get a = some (.const n) ∧ A.get b = some (.const m))) :
      IsNormal A i

theorem IsNormal.get_some {A : LevelArena} {i : Nat} (h : IsNormal A i) :
    ∃ l, A.get i = some l := by
  cases h with
  | base i l hg hb => exact ⟨l, hg⟩
  | succN i n hg hn hc => exact ⟨_, hg⟩
  | maxN i a b hg ha hb hnc => exact ⟨_, hg⟩
  | imaxN i a b hg ha hb hz hnc => exact ⟨_, hg⟩

theorem IsNormal.mono {A B : LevelArena} (hext : A.ExtendsTo B) {i : Nat}
    (h : IsNormal A i) : IsNormal B i := by
  induction h with
  | base i l hg hb => exact .base i l (LevelArena.extendsTo_get_some hext hg) hb
  | succN i n hg hn hc ihn =>
    obtain ⟨ln, hln⟩ := hn.get_some
    have hBn : B.get n = some ln := LevelArena.extendsTo_get_some hext hln
    refine .succN i n (LevelArena.extendsTo_get_some hext hg) ihn ?_
    intro m he
    rw [hBn] at he
    apply hc m
    rw [hln]
    exact he
  | maxN i a b hg ha hb hnc iha ihb =>
    obtain ⟨la, hla⟩ := ha.get_some
    obtain ⟨lb, hlb⟩ := hb.get_some
    have hBa : B.get a = some la := LevelArena.extendsTo_get_some hext hla
    have hBb : B.get b = some lb := LevelArena.extendsTo_get_some hext hlb
    refine .maxN i a b (LevelArena.extendsTo_get_some hext hg) iha ihb ?_
    rintro n m ⟨h1, h2⟩
    rw [hBa] at h1
    rw [hBb] at h2
    exact hnc n m ⟨by rw [hla]; exact h1, by rw [hlb]; exact h2⟩
  | imaxN i a b hg ha hb hz hnc iha ihb =>
    obtain ⟨la, hla⟩ := ha.get_some
    obtain ⟨lb, hlb⟩ := hb.get_some
    have hBa : B.get a = some la := LevelArena.extendsTo_get_some hext hla
    have hBb : B.get b = some lb := LevelArena.extendsTo_get_some hext hlb
    refine .imaxN i a b (LevelArena.extendsTo_get_some hext hg) iha ihb ?_ ?_
    · intro he
      rw [hBb] at he
      apply hz
      rw [hlb]
      exact he
    · rintro n m ⟨h1, h2⟩
      rw [hBa] at h1
      rw [hBb] at h2
      exact hnc n m ⟨by rw [hla]; exact h1, by rw [hlb]; exact h2⟩

theorem Level.from_u32_children (n : Nat) : (Level.from_u32 n).children = [] := by
  rw [Level.from_u32]
  by_cases h : n = 0 <;> simp [h, Level.children]

/-- Normalized levels are fixed points of `normalize`: the arena is left
untouched and the same id comes back. -/
theorem LevelArena.normalize_fixed {A : LevelArena} (hw : A.WF) (hnd : A.levels.Nodup)
    {i : Nat} (h : IsNormal A i) : A.normalize i = (A, i) := by
  induction h with
  | base i l hg hb => exact LevelArena.normalize_eq_base hg hb
  | succN i n hg hn hc ihn =>
    have hlt : n < i := hw i _ hg n (by simp [Level.children])
    rw [LevelArena.normalize_eq_succ hg hlt]
    obtain ⟨ln, hln⟩ := hn.get_some
    simp only [ihn, hln]
    cases ln with
    | const m => exact absurd hln (hc m)
    | zero => exact LevelArena.intern_found A (.succ n) i hnd hg
    | param k => exact LevelArena.intern_found A (.succ n) i hnd hg
    | succ x => exact LevelArena.intern_found A (.succ n) i hnd hg
    | max x y => exact LevelArena.intern_found A (.succ n) i hnd hg
    | imax x y => exact LevelArena.intern_found A (.succ n) i hnd hg
  | maxN i a b hg ha hb hnc iha ihb =>
    have hla : a < i := hw i _ hg a (by simp [Level.children])
    have hlb : b < i := hw i _ hg b (by simp [Level.children])
    rw [LevelArena.normalize_eq_max hg ⟨hla, hlb⟩]
    obtain ⟨la, hga⟩ := ha.get_some
    obtain ⟨lb, hgb⟩ := hb.get_some
    simp only [iha, ihb, hga, hgb]
    cases la <;> cases lb <;>
      first
      | exact absurd ⟨hga, hgb⟩ (hnc _ _)
      | exact LevelArena.intern_found A (.max a b) i hnd hg
  | imaxN i a b hg ha hb hz hnc iha ihb =>
    have hla : a < i := hw i _ hg a (by simp [Level.children])
    have hlb : b < i := hw i _ hg b (by simp [Level.children])
    rw [LevelArena.normalize_eq_imax hg ⟨hla, hlb⟩]
    obtain ⟨la, hga⟩ := ha.get_some
    obtain ⟨lb, hgb⟩ := hb.get_some
    simp only [iha, ihb, hga, hgb]
    cases lb with
    | zero => exact absurd hgb hz
    | const m =>
      cases la <;>
        first
        | exact absurd ⟨hga, hgb⟩ (hnc _ _)
        | exact LevelArena.intern_found A (.imax a b) i hnd hg
    | param k =>
      cases la <;> exact LevelArena.intern_found A (.imax a b) i hnd hg
    | succ x =>
      cases la <;> exact LevelArena.intern_found A (.imax a b) i hnd hg
    | max x y =>
      cases la <;> exact LevelArena.intern_found A (.imax a b) i hnd hg
    | imax x y =>
      cases la <;> exact LevelArena.intern_found A (.imax a b) i hnd hg

/-- Interning preserves the invariants and stores the level at the result. -/
theorem LevelArena.intern_spec {A : LevelArena} (hw : A.WF) (hnd : A.levels.Nodup)
    (l : Level) (hc : ∀ c ∈ l.children, c < A.levels.length) :
    A.ExtendsTo (A.intern l).1 ∧ (A.intern l).1.WF ∧ (A.intern l).1.levels.Nodup
    ∧ (A.intern l).2 < (A.intern l).1.levels.length
    ∧ (A.intern l).1.get (A.intern l).2 = some l :=
  ⟨LevelArena.intern_extends A l, LevelArena.intern_WF A l hw hc,
    LevelArena.intern_nodup_levels A l hnd, LevelArena.intern_lt A l, LevelArena.intern_get_level A l⟩

/-- The result bundle `normalize` must satisfy, for the spec induction. -/
def NormSpec (A B : LevelArena) (r : Nat) : Prop :=
  A.ExtendsTo B ∧ B.WF ∧ B.levels.Nodup ∧ r < B.levels.length ∧ IsNormal B r

theorem normSpec_constant {A : LevelArena} (hw : A.WF) (hnd : A.levels.Nodup) (k : Nat) :
    NormSpec A (A.constant k).1 (A.constant k).2 := by
  obtain ⟨he, hw2, hnd2, hlt2, hg2⟩ :=
    LevelArena.intern_spec hw hnd (Level.from_u32 k) (by simp [Level.from_u32_children])
  exact ⟨he, hw2, hnd2, hlt2, .base _ _ hg2 (Level.from_u32_children k)⟩

theorem normSpec_zero {A : LevelArena} (hw : A.WF) (hnd : A.levels.Nodup) :
    NormSpec A (A.zero).1 (A.zero).2 := by
  obtain ⟨he, hw2, hnd2, hlt2, hg2⟩ :=
    LevelArena.intern_spec hw hnd Level.zero (by simp [Level.children])
  exact ⟨he, hw2, hnd2, hlt2, .base _ _ hg2 rfl⟩

theorem normSpec_succ {A : LevelArena} (hw : A.WF) (hnd : A.levels.Nodup)
    (r : Nat) (hr : r < A.levels.length) (hin : IsNormal A r)
    (lr : Level) (hglr : A.get r = some lr) (hnc : ∀ m, lr ≠ .const m) :
    NormSpec A (A.succ r).1 (A.succ r).2 := by
  show NormSpec A (A.intern (Level.succ r)).1 (A.intern (Level.succ r)).2
  obtain ⟨he, hw2, hnd2, hlt2, hg2⟩ :=
    LevelArena.intern_spec hw hnd (Level.succ r) (by simpa [Level.children] using hr)
  refine ⟨he, hw2, hnd2, hlt2, .succN _ r hg2 (hin.mono he) ?_⟩
  intro m hm
  rw [LevelArena.extendsTo_get he hr, hglr] at hm
  exact hnc m (Option.some_injective _ hm)

theorem normSpec_max {A : LevelArena} (hw : A.WF) (hnd : A.levels.Nodup)
    (ra rb : Nat) (hra : ra < A.levels.length) (hrb : rb < A.levels.length)
    (hina : IsNormal A ra) (hinb : IsNormal A rb)
    (la lb : Level) (hga : A.get ra = some la) (hgb : A.get rb = some lb)
    (hnotcc : ∀ n m, ¬ (la = .const n ∧ lb = .const m)) :
    NormSpec A (A.max ra rb).1 (A.max ra rb).2 := by
  show NormSpec A (A.intern (Level.max ra rb)).1 (A.intern (Level.max ra rb)).2
  obtain ⟨he, hw2, hnd2, hlt2, hg2⟩ :=
    LevelArena.intern_spec hw hnd (Level.max ra rb)
      (by intro c hc; simp [Level.children] at hc; rcases hc with h | h <;> omega)
  refine ⟨he, hw2, hnd2, hlt2, .maxN _ ra rb hg2 (hina.mono he) (hinb.mono he) ?_⟩
  rintro n m ⟨h1, h2⟩
  rw [LevelArena.extendsTo_get he hra, hga] at h1
  rw [LevelArena.extendsTo_get he hrb, hgb] at h2
  exact hnotcc n m ⟨Option.some_injective _ h1, Option.some_injective _ h2⟩

theorem normSpec_imax {A : LevelArena} (hw : A.WF) (hnd : A.levels.Nodup)
    (ra rb : Nat) (hra : ra < A.levels.length) (hrb : rb < A.levels.length)
    (hina : IsNormal A ra) (hinb : IsNormal A rb)
    (la lb : Level) (hga : A.get ra = some la) (hgb : A.get rb = some lb)
    (hznot : lb ≠ .zero)
    (hnotcc : ∀ n m, ¬ (la = .const n ∧ lb = .const m)) :
    NormSpec A (A.imax ra rb).1 (A.imax ra rb).2 := by
  show NormSpec A (A.intern (Level.imax ra rb)).1 (A.intern (Level.imax ra rb)).2
  obtain ⟨he, hw2, hnd2, hlt2, hg2⟩ :=
    LevelArena.intern_spec hw hnd (Level.imax ra rb)
      (by intro c hc; simp [Level.children] at hc; rcases hc with h | h <;> omega)
  refine ⟨he, hw2, hnd2, hlt2, .imaxN _ ra rb hg2 (hina.mono he) (hinb.mono he) ?_ ?_⟩
  · intro hm
    rw [LevelArena.extendsTo_get he hrb, hgb] at hm
    exact hznot (Option.some_injective _ hm)
  · rintro n m ⟨h1, h2⟩
    rw [LevelArena.extendsTo_get he hra, hga] at h1
    rw [LevelArena.extendsTo_get he hrb, hgb] at h2
    exact hnotcc n m ⟨Option.some_injective _ h1, Option.some_injective _ h2⟩

/-- On well-formed deduplicated arenas, `normalize` extends the arena,
preserves both invariants, and returns a normal id. -/
theorem LevelArena.normalize_spec :
    ∀ (i : Nat) (A : LevelArena), A.WF → A.levels.Nodup → i < A.levels.length →
      NormSpec A (A.normalize i).1 (A.normalize i).2 := by
  intro i
  induction i using Nat.strong_induction_on with
  | _ i IH =>
    intro A hw hnd hi
    rcases hg : A.get i with _ | l
    · exact absurd (List.get?_eq_none.mp hg) (by omega)
    cases l with
    | zero =>
      rw [LevelArena.normalize_eq_base hg (by simp [Level.children])]
      exact ⟨LevelArena.extendsTo_refl A, hw, hnd, hi, .base i _ hg (by simp [Level.children])⟩
    | const n =>
      rw [LevelArena.normalize_eq_base hg (by simp [Level.children])]
      exact ⟨LevelArena.extendsTo_refl A, hw, hnd, hi, .base i _ hg (by simp [Level.children])⟩
    | param n =>
      rw [LevelArena.normalize_eq_base hg (by simp [Level.children])]
      exact ⟨LevelArena.extendsTo_refl A, hw, hnd, hi, .base i _ hg (by simp [Level.children])⟩
    | succ n =>
      have hlt : n < i := hw i _ hg n (by simp [Level.children])
      obtain ⟨hext1, hw1, hnd1, hlt1, hin1⟩ := IH n hlt A hw hnd (lt_trans hlt hi)
      rw [LevelArena.normalize_eq_succ hg hlt]
      obtain ⟨lr, hglr⟩ := hin1.get_some
      rw [hglr]
      cases lr with
      | const m =>
        exact (normSpec_constant hw1 hnd1 (m + 1)).imp (LevelArena.extendsTo_trans hext1) id
      | zero =>
        exact (normSpec_succ hw1 hnd1 _ hlt1 hin1 _ hglr (fun m h => by cases h)).imp
          (LevelArena.extendsTo_trans hext1) id
      | param k =>
        exact (normSpec_succ hw1 hnd1 _ hlt1 hin1 _ hglr (fun m h => by cases h)).imp
          (LevelArena.extendsTo_trans hext1) id
      | succ x =>
        exact (normSpec_succ hw1 hnd1 _ hlt1 hin1 _ hglr (fun m h => by cases h)).imp
          (LevelArena.extendsTo_trans hext1) id
      | max x y =>
        exact (normSpec_succ hw1 hnd1 _ hlt1 hin1 _ hglr (fun m h => by cases h)).imp
          (LevelArena.extendsTo_trans hext1) id
      | imax x y =>
        exact (normSpec_succ hw1 hnd1 _ hlt1 hin1 _ hglr (fun m h => by cases h)).imp
          (LevelArena.extendsTo_trans hext1) id
    | max a b =>
      have hla : a < i := hw i _ hg a (by simp [Level.children])
      have hlb : b < i := hw i _ hg b (by simp [Level.children])
      obtain ⟨hext1, hw1, hnd1, hlt1, hin1⟩ := IH a hla A hw hnd (lt_trans hla hi)
      obtain ⟨hext2, hw2, hnd2, hlt2, hin2⟩ :=
        IH b hlb (A.normalize a).1 hw1 hnd1
          (lt_of_lt_of_le (lt_trans hlb hi) (LevelArena.extendsTo_length hext1))
      have hext12 : A.ExtendsTo ((A.normalize a).1.normalize b).1 :=
        LevelArena.extendsTo_trans hext1 hext2
      have hra2 : (A.normalize a).2 < ((A.normalize a).1.normalize b).1.levels.length :=
        lt_of_lt_of_le hlt1 (LevelArena.extendsTo_length hext2)
      have hina2 : IsNormal ((A.normalize a).1.normalize b).1 (A.normalize a).2 :=
        hin1.mono hext2
      rw [LevelArena.normalize_eq_max hg ⟨hla, hlb⟩]
      obtain ⟨la, hga⟩ := hina2.get_some
      obtain ⟨lb, hgb⟩ := hin2.get_some
      rw [hga, hgb]
      cases la <;> cases lb <;>
        first
        | exact (normSpec_constant hw2 hnd2 _).imp (LevelArena.extendsTo_trans hext12) id
        | exact (normSpec_max hw2 hnd2 _ _ hra2 hlt2 hina2 hin2 _ _ hga hgb
            (by rintro n m ⟨h1, h2⟩ <;> cases h1 <;> cases h2)).imp
            (LevelArena.extendsTo_trans hext12) id
    | imax a b =>
      have hla : a < i := hw i _ hg a (by simp [Level.children])
      have hlb : b < i := hw i _ hg b (by simp [Level.children])
      obtain ⟨hext1, hw1, hnd1, hlt1, hin1⟩ := IH a hla A hw hnd (lt_trans hla hi)
      obtain ⟨hext2, hw2, hnd2, hlt2, hin2⟩ :=
        IH b hlb (A.normalize a).1 hw1 hnd1
          (lt_of_lt_of_le (lt_trans hlb hi) (LevelArena.extendsTo_length hext1))
      have hext12 : A.ExtendsTo ((A.normalize a).1.normalize b).1 :=
        LevelArena.extendsTo_trans hext1 hext2
      have hra2 : (A.normalize a).2 < ((A.normalize a).1.normalize b).1.levels.length :=
        lt_of_lt_of_le hlt1 (LevelArena.extendsTo_length hext2)
      have hina2 : IsNormal ((A.normalize a).1.normalize b).1 (A.normalize a).2 :=
        hin1.mono hext2
      rw [LevelArena.normalize_eq_imax hg ⟨hla, hlb⟩]
      obtain ⟨la, hga⟩ := hina2.get_some
      obtain ⟨lb, hgb⟩ := hin2.get_some
      rw [hga, hgb]
      cases lb with
      | zero =>
        exact (normSpec_zero hw2 hnd2).imp (LevelArena.extendsTo_trans hext12) id
      | const m =>
        cases la <;>
          first
          | exact (normSpec_constant hw2 hnd2 _).imp (LevelArena.extendsTo_trans hext12) id
          | exact (normSpec_imax hw2 hnd2 _ _ hra2 hlt2 hina2 hin2 _ _ hga hgb
              (by intro h; cases h) (by rintro n m ⟨h1, h2⟩ <;> cases h1)).imp
              (LevelArena.extendsTo_trans hext12) id
      | param k =>
        cases la <;>
          exact (normSpec_imax hw2 hnd2 _ _ hra2 hlt2 hina2 hin2 _ _ hga hgb
            (by intro h; cases h) (by rintro n m ⟨h1, h2⟩ <;> cases h2)).imp
            (LevelArena.extendsTo_trans hext12) id
      | succ x =>
        cases la <;>
          exact (normSpec_imax hw2 hnd2 _ _ hra2 hlt2 hina2 hin2 _ _ hga hgb
            (by intro h; cases h) (by rintro n m ⟨h1, h2⟩ <;> cases h2)).imp
            (LevelArena.extendsTo_trans hext12) id
      | max x y =>
        cases la <;>
          exact (normSpec_imax hw2 hnd2 _ _ hra2 hlt2 hina2 hin2 _ _ hga hgb
            (by intro h; cases h) (by rintro n m ⟨h1, h2⟩ <;> cases h2)).imp
            (LevelArena.extendsTo_trans hext12) id
      | imax x y =>
        cases la <;>
          exact (normSpec_imax hw2 hnd2 _ _ hra2 hlt2 hina2 hin2 _ _ hga hgb
            (by intro h; cases h) (by rintro n m ⟨h1, h2⟩ <;> cases h2)).imp
            (LevelArena.extendsTo_trans hext12) id

/-- C6.  `LevelArena::normalize` is idempotent: on any well-formed
deduplicated arena (the invariants every arena reachable through the
public constructors satisfies), normalizing the id returned by `normalize`
— in the arena state `normalize` produced — changes nothing: the same id
comes back and the arena is untouched.  In particular every output of
`normalize` is a fixed point (Succ over a normalized Const has been
collapsed to Const(n+1), Max and IMax of two Consts to the constant
maximum, IMax(_, Zero) to Zero). -/
theorem level_normalize_idempotent (A : LevelArena) (hw : A.wfB = true)
    (hnd : A.levels.Nodup) (i : Nat) :
    (A.normalize i).1.normalize (A.normalize i).2 = ((A.normalize i).1, (A.normalize i).2) := by
  rcases Nat.lt_or_ge i A.levels.length with hi | hi
  · obtain ⟨hext, hw2, hnd2, hlt2, hin2⟩ :=
      LevelArena.normalize_spec i A (LevelArena.wfB_imp_WF hw) hnd hi
    exact LevelArena.normalize_fixed hw2 hnd2 hin2
  · have hg : A.get i = none := by
      rw [LevelArena.get]
      exact List.get?_eq_none.mpr hi
    rw [LevelArena.normalize_eq_none hg]
    exact LevelArena.normalize_eq_none hg

/-- Witness for `level_normalize_idempotent` on the arena holding
`Max(Const 1, Const 2)` (which normalizes to `Const 2`). -/
theorem level_normalize_idempotent_witness :
    ((⟨[.zero, .const 1, .const 2, .max 1 2]⟩ : LevelArena).normalize 3).1.normalize
      ((⟨[.zero, .const 1, .const 2, .max 1 2]⟩ : LevelArena).normalize 3).2
    = (((⟨[.zero, .const 1, .const 2, .max 1 2]⟩ : LevelArena).normalize 3).1,
       ((⟨[.zero, .const 1, .const 2, .max 1 2]⟩ : LevelArena).normalize 3).2) :=
  level_normalize_idempotent ⟨[.zero, .const 1, .const 2, .max 1 2]⟩ (by decide) (by decide) 3

/-! ## Terms and the hash-consing arena
(src/lean-agentic/src/term.rs, src/lean-agentic/src/arena.rs; the
leanr-core crate re-exports the same `term`/`arena` modules)

`Term` in the source is a `TermKind` paired with a cached hash computed
from the kind alone, and `Term` equality is hash-plus-kind equality — so
equality of stored terms is exactly `TermKind` equality, and the arena is
modelled as the `Vec` of kinds.  The source hashes with
`DefaultHasher` (SipHash); `intern` relies only on the hash being a
deterministic pure function of the kind, which the structural hash below
models. -/

/-- Binder information flags (`BinderInfo` in term.rs). -/
inductive BinderInfo where
  | default
  | implicit
  | strictImplicit
  | instImplicit
deriving DecidableEq

/-- Binder of a lambda / Pi / let (`Binder` in term.rs). -/
structure Binder where
  name : SymbolId
  ty : TermId
  implicit : Bool
  info : BinderInfo
deriving DecidableEq

/-- Literal values (`Literal` in term.rs). -/
inductive Literal where
  | nat (n : Nat)
  | str (s : String)
deriving DecidableEq

/-- Core term representation (`TermKind` in term.rs).  Sub-terms are
`TermId` indices into the arena. -/
inductive TermKind where
  | sort (l : LevelId)
  | const (name : SymbolId) (levels : List LevelId)
  | var (idx : Nat)
  | app (f a : TermId)
  | lam (b : Binder) (body : TermId)
  | pi (b : Binder) (body : TermId)
  | letE (b : Binder) (value body : TermId)
  | mvar (m : MetaVarId)
  | lit (l : Literal)
deriving DecidableEq

/-- Sub-term ids referenced by one term kind. -/
def TermKind.children : TermKind → List Nat
  | .app f a => [f, a]
  | .lam b body => [b.ty, body]
  | .pi b body => [b.ty, body]
  | .letE b v body => [b.ty, v, body]
  | _ => []

/-- Mixer for the structural hash. -/
def natListMix : List Nat → Nat
  | [] => 7
  | x :: xs => natListMix xs * 31 + x + 1

/-- Numeric code of a binder-info flag (hashing only). -/
def BinderInfo.code : BinderInfo → Nat
  | .default => 0
  | .implicit => 1
  | .strictImplicit => 2
  | .instImplicit => 3

/-- Numeric code of a literal (hashing only). -/
def Literal.code : Literal → Nat
  | .nat n => n * 2
  | .str s => s.length * 2 + 1

/-- Deterministic structural hash of a kind, standing in for the
`DefaultHasher` hash the source caches in `Term::new`. -/
def termHash : TermKind → Nat
  | .sort l => natListMix [0, l]
  | .const n ls => natListMix (1 :: n :: ls)
  | .var i => natListMix [2, i]
  | .app f a => natListMix [3, f, a]
  | .lam b body => natListMix [4, b.name, b.ty, (if b.implicit then 1 else 0), b.info.code, body]
  | .pi b body => natListMix [5, b.name, b.ty, (if b.implicit then 1 else 0), b.info.code, body]
  | .letE b v body =>
      natListMix [6, b.name, b.ty, (if b.implicit then 1 else 0), b.info.code, v, body]
  | .mvar m => natListMix [7, m]
  | .lit l => natListMix [8, l.code]

/-- Arena for interning terms (`Arena` in arena.rs): the term vector and
the hash-cons bucket map `HashMap<u64, Vec<TermId>>`. -/
structure Arena where
  terms : List TermKind
  cache : List (Nat × List Nat)
deriving DecidableEq

/-- `Arena::new`. -/
def Arena.new : Arena := ⟨[], []⟩

/-- `Arena::kind` / `Arena::get` (terms carry no data beyond the kind). -/
def Arena.get (A : Arena) (id : Nat) : Option TermKind := A.terms.get? id

/-- `self.cache.entry(hash).or_insert_with(Vec::new).push(id)`. -/
def cachePush : List (Nat × List Nat) → Nat → Nat → List (Nat × List Nat)
  | [], h, id => [(h, [id])]
  | (h1, b1) :: rest, h, id =>
    if h1 = h then (h1, b1 ++ [id]) :: rest else (h1, b1) :: cachePush rest h id

/-- The candidate scan of `Arena::intern`: walk the bucket, compare each
stored candidate kind for equality. -/
def findInBucket (terms : List TermKind) (k : TermKind) : List Nat → Option Nat
  | [] => none
  | id :: rest =>
    match terms.get? id with
    | some existing => if existing = k then some id else findInBucket terms k rest
    | none => findInBucket terms k rest

/-- `Arena::intern`: hash, probe the bucket, return an existing id on a
field-wise equal candidate, else allocate the next dense id and record it
in the bucket. -/
def Arena.intern (A : Arena) (k : TermKind) : Arena × Nat :=
  let h := termHash k
  let bucket := (assocLookup A.cache h).getD []
  match findInBucket A.terms k bucket with
  | some id => (A, id)
  | none => (⟨A.terms ++ [k], cachePush A.cache h A.terms.length⟩, A.terms.length)

/-- `Arena::mk_sort`. -/
def Arena.mk_sort (A : Arena) (level : LevelId) : Arena × Nat := A.intern (.sort level)

/-- `Arena::mk_const`. -/
def Arena.mk_const (A : Arena) (name : SymbolId) (levels : List LevelId) : Arena × Nat :=
  A.intern (.const name levels)

/-- `Arena::mk_var`. -/
def Arena.mk_var (A : Arena) (index : Nat) : Arena × Nat := A.intern (.var index)

/-- `Arena::mk_app`. -/
def Arena.mk_app (A : Arena) (f a : Nat) : Arena × Nat := A.intern (.app f a)

/-- `Arena::mk_lam`. -/
def Arena.mk_lam (A : Arena) (b : Binder) (body : Nat) : Arena × Nat := A.intern (.lam b body)

/-- `Arena::mk_pi`. -/
def Arena.mk_pi (A : Arena) (b : Binder) (body : Nat) : Arena × Nat := A.intern (.pi b body)

/-- `Arena::mk_let`. -/
def Arena.mk_let (A : Arena) (b : Binder) (value body : Nat) : Arena × Nat :=
  A.intern (.letE b value body)

/-- `Arena::mk_mvar`. -/
def Arena.mk_mvar (A : Arena) (m : MetaVarId) : Arena × Nat := A.intern (.mvar m)

/-- `Arena::mk_nat`. -/
def Arena.mk_nat (A : Arena) (n : Nat) : Arena × Nat := A.intern (.lit (.nat n))

/-- `Arena::mk_app_spine` builds `((f a) b) c` left-associated. -/
def Arena.mk_app_spine (A : Arena) (f : Nat) (args : List Nat) : Arena × Nat :=
  args.foldl (fun acc arg => (acc.1.mk_app acc.2 arg)) (A, f)

/-- A sequence of later interns (used to state that an id, once handed
out, keeps denoting its kind). -/
def Arena.internMany (A : Arena) : List TermKind → Arena
  | [] => A
  | k :: ks => ((A.intern k).1).internMany ks

/-- Cache consistency: every stored term's index is recorded in the bucket
of its hash.  `intern` maintains this; it is what makes the bucket probe
complete. -/
def Arena.Consistent (A : Arena) : Prop :=
  ∀ j k, A.terms.get? j = some k → j ∈ (assocLookup A.cache (termHash k)).getD []

/-- Decidable bounded form of `Arena.Consistent` for concrete witnesses. -/
def Arena.consistentB (A : Arena) : Bool :=
  (List.range A.terms.length).all fun j =>
    match A.terms.get? j with
    | some k => ((assocLookup A.cache (termHash k)).getD []).contains j
    | none => true

theorem Arena.consistentB_iff {A : Arena} : A.consistentB = true ↔ A.Consistent := by
  constructor
  · intro h j k hg
    have hj : j < A.terms.length := (List.get?_eq_some.mp hg).1
    have hall := List.all_eq_true.mp h j (List.mem_range.mpr hj)
    rw [hg] at hall
    simpa using hall
  · intro h
    rw [Arena.consistentB, List.all_eq_true]
    intro j hj
    rcases hg : A.terms.get? j with _ | k
    · simp
    · simpa using h j k hg

theorem findInBucket_sound (terms : List TermKind) (k : TermKind) :
    ∀ bucket id, findInBucket terms k bucket = some id → terms.get? id = some k := by
  intro bucket
  induction bucket with
  | nil => intro id h; simp [findInBucket] at h
  | cons x rest ih =>
    intro id h
    rcases hg : terms.get? x with _ | existing
    · simp only [findInBucket, hg] at h
      exact ih id h
    · simp only [findInBucket, hg] at h
      by_cases he : existing = k
      · rw [if_pos he] at h
        cases h
        rw [hg, he]
      · rw [if_neg he] at h
        exact ih id h

theorem findInBucket_none (terms : List TermKind) (k : TermKind) :
    ∀ bucket, findInBucket terms k bucket = none →
      ∀ j ∈ bucket, terms.get? j ≠ some k := by
  intro bucket
  induction bucket with
  | nil => intro _ j hj; simp at hj
  | cons x rest ih =>
    intro h j hj hgj
    rcases List.mem_cons.mp hj with he | hm
    · subst he
      rw [List.get?_eq_getElem?] at hgj
      simp [findInBucket, hgj] at h
    · rcases hg : terms.get? x with _ | existing
      · simp only [findInBucket, hg] at h
        exact ih h j hm hgj
      · simp only [findInBucket, hg] at h
        by_cases hek : existing = k
        · rw [if_pos hek] at h
          cases h
        · rw [if_neg hek] at h
          exact ih h j hm hgj

theorem cachePush_lookup_self (c : List (Nat × List Nat)) (h id : Nat) :
    (assocLookup (cachePush c h id) h).getD [] = (assocLookup c h).getD [] ++ [id] := by
  induction c with
  | nil => simp [cachePush, assocLookup]
  | cons p rest ih =>
    obtain ⟨h1, b1⟩ := p
    by_cases he : h1 = h
    · subst he
      simp [cachePush, assocLookup]
    · simp [cachePush, assocLookup, he, ih]

theorem cachePush_lookup_ne (c : List (Nat × List Nat)) (h id h2 : Nat) (hne : h2 ≠ h) :
    assocLookup (cachePush c h id) h2 = assocLookup c h2 := by
  have h3 : h ≠ h2 := fun he => hne he.symm
  induction c with
  | nil => simp [cachePush, assocLookup, h3]
  | cons p rest ih =>
    obtain ⟨h1, b1⟩ := p
    by_cases he : h1 = h
    · subst he
      simp [cachePush, assocLookup, h3]
    · by_cases he2 : h1 = h2
      · simp [cachePush, assocLookup, he, he2, hne]
      · simp [cachePush, assocLookup, he, he2, ih]

/-- The two shapes an `intern` call can take. -/
theorem Arena.intern_cases (A : Arena) (k : TermKind) :
    (∃ id, findInBucket A.terms k ((assocLookup A.cache (termHash k)).getD []) = some id
      ∧ A.intern k = (A, id))
    ∨ (findInBucket A.terms k ((assocLookup A.cache (termHash k)).getD []) = none
      ∧ A.intern k = (⟨A.terms ++ [k], cachePush A.cache (termHash k) A.terms.length⟩,
          A.terms.length)) := by
  simp only [Arena.intern]
  split
  · rename_i id heq
    exact Or.inl ⟨id, heq, rfl⟩
  · rename_i heq
    exact Or.inr ⟨heq, rfl⟩

theorem Arena.intern_stores (A : Arena) (k : TermKind) :
    (A.intern k).1.get (A.intern k).2 = some k := by
  rcases Arena.intern_cases A k with ⟨id, hf, he⟩ | ⟨hf, he⟩
  · rw [he]
    exact findInBucket_sound A.terms k _ id hf
  · rw [he, Arena.get]
    exact List.get?_concat_length A.terms k

theorem Arena.intern_prefix (A : Arena) (k : TermKind) :
    ∃ t, (A.intern k).1.terms = A.terms ++ t := by
  rcases Arena.intern_cases A k with ⟨id, hf, he⟩ | ⟨hf, he⟩
  · exact ⟨[], by rw [he]; simp⟩
  · exact ⟨[k], by rw [he]⟩

theorem Arena.intern_absent {A : Arena} (hc : A.Consistent) {k : TermKind}
    (hf : findInBucket A.terms k ((assocLookup A.cache (termHash k)).getD []) = none) :
    ∀ j, A.terms.get? j ≠ some k :=
  fun j hgj => findInBucket_none A.terms k _ hf j (hc j k hgj) hgj

theorem Arena.intern_found_eq {A : Arena} (hc : A.Consistent) (hnd : A.terms.Nodup)
    {k : TermKind} {j : Nat} (hg : A.terms.get? j = some k) : A.intern k = (A, j) := by
  rcases Arena.intern_cases A k with ⟨id, hf, he⟩ | ⟨hf, he⟩
  · have hid : A.terms.get? id = some k := findInBucket_sound A.terms k _ id hf
    have hij : id = j :=
      List.get?_inj (List.get?_eq_some.mp hid).1 hnd (hid.trans hg.symm)
    rw [he, hij]
  · exact absurd hg (Arena.intern_absent hc hf j)

theorem Arena.intern_consistent {A : Arena} (hc : A.Consistent) (k : TermKind) :
    (A.intern k).1.Consistent := by
  rcases Arena.intern_cases A k with ⟨id, hf, he⟩ | ⟨hf, he⟩
  · rw [he]
    exact hc
  · rw [he]
    intro j kj hgj
    simp only at hgj ⊢
    rcases Nat.lt_or_ge j A.terms.length with hj | hj
    · have hgj0 : A.terms.get? j = some kj := by rwa [List.get?_append hj] at hgj
      by_cases hh : termHash kj = termHash k
      · rw [hh, cachePush_lookup_self]
        refine List.mem_append_left _ ?_
        have := hc j kj hgj0
        rwa [hh] at this
      · rw [cachePush_lookup_ne _ _ _ _ hh]
        exact hc j kj hgj0
    · have hlen : j < A.terms.length + 1 := by
        have := (List.get?_eq_some.mp hgj).1
        simpa using this
      have hje : j = A.terms.length := by omega
      subst hje
      have hkk : kj = k := by
        rw [List.get?_concat_length] at hgj
        exact (Option.some_injective _ hgj).symm
      subst hkk
      rw [cachePush_lookup_self]
      exact List.mem_append_right _ (by simp)

theorem Arena.intern_nodup_terms {A : Arena} (hc : A.Consistent) (hnd : A.terms.Nodup)
    (k : TermKind) : (A.intern k).1.terms.Nodup := by
  rcases Arena.intern_cases A k with ⟨id, hf, he⟩ | ⟨hf, he⟩
  · rw [he]
    exact hnd
  · rw [he]
    rw [List.nodup_append]
    refine ⟨hnd, List.nodup_singleton k, ?_⟩
    intro x hx hxk
    simp at hxk
    subst hxk
    obtain ⟨i, hi⟩ := List.get_of_mem hx
    exact Arena.intern_absent hc hf i (by rw [List.get?_eq_get i.2, hi])

theorem terms_prefix_get {A B : Arena} (hp : ∃ t, B.terms = A.terms ++ t) {j : Nat}
    {k : TermKind} (hg : A.terms.get? j = some k) : B.terms.get? j = some k := by
  obtain ⟨t, ht⟩ := hp
  rw [ht, List.get?_append (List.get?_eq_some.mp hg).1]
  exact hg

theorem Arena.internMany_spec {A : Arena} (hc : A.Consistent) (hnd : A.terms.Nodup) :
    ∀ ks : List TermKind, (A.internMany ks).Consistent ∧ (A.internMany ks).terms.Nodup
      ∧ ∃ t, (A.internMany ks).terms = A.terms ++ t := by
  intro ks
  induction ks generalizing A with
  | nil => exact ⟨hc, hnd, [], by simp [Arena.internMany]⟩
  | cons k ks ih =>
    obtain ⟨hc2, hnd2, t2, ht2⟩ :=
      ih (Arena.intern_consistent hc k) (Arena.intern_nodup_terms hc hnd k)
    obtain ⟨t1, ht1⟩ := Arena.intern_prefix A k
    exact ⟨hc2, hnd2, t1 ++ t2, by rw [Arena.internMany, ht2, ht1, List.append_assoc]⟩

/-- C2.  Hash-consing contract of `Arena::intern` (and hence of all the
`mk_*` wrappers, which are thin `intern` calls): on any arena satisfying
the cache-consistency and no-duplicate invariants (which hold for
`Arena::new` and are preserved by every `intern`), interning stores the
given kind at the returned id; a repeated intern of the same kind — also
after arbitrarily many other interns — returns the same id without
touching the arena; the id of an already-stored kind is its unique
existing index; and TermId equality is equivalent to structural TermKind
equality of the denoted terms. -/
theorem arena_intern_hash_consing (A : Arena) (k : TermKind)
    (hcb : A.consistentB = true) (hnd : A.terms.Nodup) :
    (A.intern k).1.get (A.intern k).2 = some k
    ∧ (∃ t, (A.intern k).1.terms = A.terms ++ t)
    ∧ (A.intern k).1.consistentB = true
    ∧ (A.intern k).1.terms.Nodup
    ∧ (A.intern k).1.intern k = ((A.intern k).1, (A.intern k).2)
    ∧ (∀ j, A.terms.get? j = some k → A.intern k = (A, j))
    ∧ (∀ i j ki kj, A.terms.get? i = some ki → A.terms.get? j = some kj →
        (i = j ↔ ki = kj))
    ∧ (∀ ks, ((A.intern k).1.internMany ks).intern k
        = ((A.intern k).1.internMany ks, (A.intern k).2)) := by
  have hc : A.Consistent := Arena.consistentB_iff.mp hcb
  have hc2 : (A.intern k).1.Consistent := Arena.intern_consistent hc k
  have hnd2 : (A.intern k).1.terms.Nodup := Arena.intern_nodup_terms hc hnd k
  refine ⟨Arena.intern_stores A k, Arena.intern_prefix A k, Arena.consistentB_iff.mpr hc2,
    hnd2, ?_, ?_, ?_, ?_⟩
  · exact Arena.intern_found_eq hc2 hnd2 (Arena.intern_stores A k)
  · intro j hg
    exact Arena.intern_found_eq hc hnd hg
  · intro i j ki kj hgi hgj
    constructor
    · intro he
      subst he
      rw [hgi] at hgj
      exact Option.some_injective _ hgj
    · intro he
      subst he
      exact List.get?_inj (List.get?_eq_some.mp hgi).1 hnd (hgi.trans hgj.symm)
  · intro ks
    obtain ⟨hc3, hnd3, hpre⟩ := Arena.internMany_spec hc2 hnd2 ks
    exact Arena.intern_found_eq hc3 hnd3 (terms_prefix_get hpre (Arena.intern_stores A k))

/-- Witness for `arena_intern_hash_consing`: interning `Var 0` into the
arena that already interned `Var 0` and `Var 1` starting from
`Arena::new`. -/
theorem arena_intern_hash_consing_witness :
    (((Arena.new.mk_var 0).1.mk_var 1).1.intern (.var 0)).1.get
        (((Arena.new.mk_var 0).1.mk_var 1).1.intern (.var 0)).2 = some (.var 0)
    ∧ ((Arena.new.mk_var 0).1.mk_var 1).1.intern (.var 0)
        = (((Arena.new.mk_var 0).1.mk_var 1).1, 0) :=
  have h := arena_intern_hash_consing ((Arena.new.mk_var 0).1.mk_var 1).1 (.var 0)
    (by decide) (by decide)
  ⟨h.1, h.2.2.2.2.2.1 0 (by decide)⟩

/-! ## Environment (src/leanr-core/src/environment.rs, parts used by the
converter) and kernel errors (src/leanr-core/src/lib.rs)

The inductive-type indices of `Environment` are not consulted by any code
path modelled here and are omitted; `get_decl` is the `HashMap` lookup. -/

/-- Kernel error variants (`Error` in lib.rs).  The source formats ids and
details into the message strings; the messages here keep the fixed prefix
text. -/
inductive Error where
  | typeError (msg : String)
  | universeError (msg : String)
  | unificationError (msg : String)
  | notFound (msg : String)
  | conversionError (expected actual : String)
  | internal (msg : String)
deriving DecidableEq

/-- Declaration attributes (environment.rs). -/
structure Attributes where
  reducible : Bool
  isInstance : Bool
  isRecursor : Bool
  custom : List String
deriving DecidableEq

/-- `Attributes::default` (`reducible = true`). -/
def Attributes.defaultA : Attributes := ⟨true, false, false, []⟩

/-- Declaration kinds (environment.rs): Def, Axiom, Theorem, Inductive,
Constructor, Recursor. -/
inductive DeclKind where
  | defn
  | axm
  | thm
  | induct
  | ctor
  | recr
deriving DecidableEq

/-- A constant declaration (environment.rs). -/
structure Declaration where
  name : SymbolId
  level_params : List Nat
  ty : TermId
  value : Option TermId
  attrs : Attributes
  kind : DeclKind
deriving DecidableEq

/-- `Declaration::is_reducible`: reducible attribute and a value present. -/
def Declaration.is_reducible (d : Declaration) : Bool :=
  d.attrs.reducible && d.value.isSome

/-- Global environment (declaration map only; see the section comment). -/
structure Environment where
  declarations : List (SymbolId × Declaration)
deriving DecidableEq

/-- `Environment::get_decl`. -/
def Environment.get_decl (env : Environment) (name : SymbolId) : Option Declaration :=
  assocLookup env.declarations name

/-! ## Converter (src/leanr-core/src/conversion.rs)

`Converter` holds the fuel counter and the WHNF memo cache keyed by
`(TermId, context length)`; statistics are omitted.  `substitute` does not
read the converter state, so it is a function of the arena. -/

/-- `DEFAULT_FUEL`. -/
def DEFAULT_FUEL : Nat := 10000

/-- Converter state (fuel and WHNF cache). -/
structure Converter where
  fuel : Nat
  cache : List ((Nat × Nat) × Nat)
deriving DecidableEq

/-- `Converter::new`. -/
def Converter.new : Converter := ⟨DEFAULT_FUEL, []⟩

/-- `Converter::with_fuel`. -/
def Converter.with_fuel (fuel : Nat) : Converter := ⟨fuel, []⟩

/-- `Converter::substitute`: replace `Var(idx)` by `replacement`,
incrementing `idx` under each binder; the replacement is inserted as-is
(the source performs no shift of its free variables).  Sharing is
preserved: a node all of whose children came back unchanged is returned
itself, without re-interning.  The recursion follows child ids, which the
arena invariant (children precede parents, as guaranteed by `intern`)
makes strictly decreasing; the guarded `else` branches are unreachable on
such arenas. -/
def substitute (A : Arena) (term : Nat) (idx : Nat) (replacement : Nat) :
    Except Error (Arena × Nat) :=
  match A.get term with
  | none => .error (.internal "Invalid term ID")
  | some (.var i) => .ok (A, if i = idx then replacement else term)
  | some (.app f a) =>
    if hf : f < term ∧ a < term then
      match substitute A f idx replacement with
      | .error e => .error e
      | .ok (A1, nf) =>
        match substitute A1 a idx replacement with
        | .error e => .error e
        | .ok (A2, na) =>
          if nf = f ∧ na = a then .ok (A2, term)
          else .ok (A2.mk_app nf na)
    else .error (.internal "malformed arena")
  | some (.lam b body) =>
    if hf : b.ty < term ∧ body < term then
      match substitute A b.ty idx replacement with
      | .error e => .error e
      | .ok (A1, nty) =>
        match substitute A1 body (idx + 1) replacement with
        | .error e => .error e
        | .ok (A2, nbody) =>
          if nty = b.ty ∧ nbody = body then .ok (A2, term)
          else .ok (A2.mk_lam { b with ty := nty } nbody)
    else .error (.internal "malformed arena")
  | some (.pi b body) =>
    if hf : b.ty < term ∧ body < term then
      match substitute A b.ty idx replacement with
      | .error e => .error e
      | .ok (A1, nty) =>
        match substitute A1 body (idx + 1) replacement with
        | .error e => .error e
        | .ok (A2, nbody) =>
          if nty = b.ty ∧ nbody = body then .ok (A2, term)
          else .ok (A2.mk_pi { b with ty := nty } nbody)
    else .error (.internal "malformed arena")
  | some (.letE b v body) =>
    if hf : b.ty < term ∧ v < term ∧ body < term then
      match substitute A b.ty idx replacement with
      | .error e => .error e
      | .ok (A1, nty) =>
        match substitute A1 v idx replacement with
        | .error e => .error e
        | .ok (A2, nv) =>
          match substitute A2 body (idx + 1) replacement with
          | .error e => .error e
          | .ok (A3, nbody) =>
            if nty = b.ty ∧ nv = v ∧ nbody = body then .ok (A3, term)
            else .ok (A3.mk_let { b with ty := nty } nv nbody)
    else .error (.internal "malformed arena")
  | some (.sort _) | some (.const _ _) | some (.lit _) | some (.mvar _) => .ok (A, term)
termination_by term
decreasing_by
  · exact hf.1
  · exact hf.2
  · exact hf.1
  · exact hf.2
  · exact hf.1
  · exact hf.2
  · exact hf.1
  · exact hf.2.1
  · exact hf.2.2

/-- `Converter::whnf`.  The source recursion is bounded by the fuel in the
converter state, which is checked and decremented once per call and
threaded through the sequential recursive calls.  `gas` is a structural
bound used only to make the function total in Lean: every call passes the
remaining fuel as `gas` (as `isDefEq` below does), and one unit of gas is
consumed exactly when one unit of fuel is, so with `gas = cv.fuel` the
`gas = 0` branch fires only when the fuel check fails anyway and the
behaviour is exactly the source's. -/
def whnf (gas : Nat) (cv : Converter) (A : Arena) (env : Environment) (ctx : Context)
    (term : Nat) : Except Error (Converter × Arena × Nat) :=
  match gas with
  | 0 => .error (.internal "Out of fuel during normalization")
  | gas + 1 =>
    if cv.fuel = 0 then .error (.internal "Out of fuel during normalization")
    else
      match assocLookup cv.cache (term, ctx.len) with
      | some cached => .ok (cv, A, cached)
      | none =>
        let cv1 : Converter := ⟨cv.fuel - 1, cv.cache⟩
        match A.get term with
        | none => .error (.internal "Invalid term ID")
        | some kind =>
          let step : Except Error (Converter × Arena × Nat) :=
            match kind with
            | .var i =>
              match ctx.value_of i with
              | some v => whnf gas cv1 A env ctx v
              | none => .ok (cv1, A, term)
            | .const name _levels =>
              match env.get_decl name with
              | some decl =>
                if decl.is_reducible then
                  match decl.value with
                  | some body =>
                    -- "Instantiate universe parameters if needed /
                    -- For now, just reduce the body" (source comment):
                    -- the `_levels` arguments are ignored.
                    whnf gas cv1 A env ctx body
                  | none => .ok (cv1, A, term)
                else .ok (cv1, A, term)
              | none => .ok (cv1, A, term)
            | .app f a =>
              match whnf gas cv1 A env ctx f with
              | .error e => .error e
              | .ok (cv2, A1, fw) =>
                match A1.get fw with
                | some (.lam _b body) =>
                  match substitute A1 body 0 a with
                  | .error e => .error e
                  | .ok (A2, s) => whnf gas cv2 A2 env ctx s
                | _ =>
                  if fw ≠ f then
                    whnf gas cv2 (A1.mk_app fw a).1 env ctx (A1.mk_app fw a).2
                  else .ok (cv2, A1, term)
            | .letE _b v body =>
              match substitute A body 0 v with
              | .error e => .error e
              | .ok (A1, s) => whnf gas cv1 A1 env ctx s
            | .sort _ | .pi _ _ | .lam _ _ => .ok (cv1, A, term)
            | .mvar _ | .lit _ => .ok (cv1, A, term)
          match step with
          | .error e => .error e
          | .ok (cv2, A2, result) =>
            .ok (⟨cv2.fuel, assocInsert cv2.cache (term, ctx.len) result⟩, A2, result)

mutual

/-- `Converter::is_def_eq`: TermId fast path, then WHNF both sides and
compare, then structural comparison.  The recursion of the source through
`is_def_eq_whnf` has no explicit bound; `gas` makes it total here, and
every theorem below supplies enough gas that the `gas = 0` branch is never
taken. -/
def isDefEq (gas : Nat) (cv : Converter) (A : Arena) (env : Environment) (ctx : Context)
    (t1 t2 : Nat) : Except Error (Converter × Arena × Bool) :=
  match gas with
  | 0 => .error (.internal "out of gas")
  | gas + 1 =>
    if t1 = t2 then .ok (cv, A, true)
    else
      match whnf cv.fuel cv A env ctx t1 with
      | .error e => .error e
      | .ok (cv1, A1, w1) =>
        match whnf cv1.fuel cv1 A1 env ctx t2 with
        | .error e => .error e
        | .ok (cv2, A2, w2) =>
          if w1 = w2 then .ok (cv2, A2, true)
          else isDefEqWhnf gas cv2 A2 env ctx w1 w2

/-- `Converter::is_def_eq_whnf`: head-constructor comparison of two terms
already in WHNF, recursing through `is_def_eq` on children (bodies under
an extended context).  Sorts compare by raw LevelId equality. -/
def isDefEqWhnf (gas : Nat) (cv : Converter) (A : Arena) (env : Environment) (ctx : Context)
    (t1 t2 : Nat) : Except Error (Converter × Arena × Bool) :=
  match gas with
  | 0 => .error (.internal "out of gas")
  | gas + 1 =>
    if t1 = t2 then .ok (cv, A, true)
    else
      match A.get t1, A.get t2 with
      | none, _ => .error (.internal "Invalid term ID")
      | some _, none => .error (.internal "Invalid term ID")
      | some k1, some k2 =>
        match k1, k2 with
        | .sort l1, .sort l2 => .ok (cv, A, decide (l1 = l2))
        | .var i1, .var i2 => .ok (cv, A, decide (i1 = i2))
        | .const n1 ls1, .const n2 ls2 =>
          .ok (cv, A, decide (n1 = n2) && decide (ls1 = ls2))
        | .app f1 a1, .app f2 a2 =>
          match isDefEq gas cv A env ctx f1 f2 with
          | .error e => .error e
          | .ok (cv1, A1, fe) =>
            match isDefEq gas cv1 A1 env ctx a1 a2 with
            | .error e => .error e
            | .ok (cv2, A2, ae) => .ok (cv2, A2, fe && ae)
        | .lam b1 body1, .lam b2 body2 =>
          match isDefEq gas cv A env ctx b1.ty b2.ty with
          | .error e => .error e
          | .ok (cv1, A1, te) =>
            if te = false then .ok (cv1, A1, false)
            else isDefEq gas cv1 A1 env (ctx.push_var b1.name b1.ty) body1 body2
        | .pi b1 body1, .pi b2 body2 =>
          match isDefEq gas cv A env ctx b1.ty b2.ty with
          | .error e => .error e
          | .ok (cv1, A1, te) =>
            if te = false then .ok (cv1, A1, false)
            else isDefEq gas cv1 A1 env (ctx.push_var b1.name b1.ty) body1 body2
        | .lit l1, .lit l2 => .ok (cv, A, decide (l1 = l2))
        | _, _ => .ok (cv, A, false)

end

/-- Arena used for C1: id 0 = `Sort 0`, id 1 = `Var 0`, id 2 = `Var 1`,
id 3 = `Lam(x : Sort 0. Var 1)`, built from `Arena::new` by the
constructors. -/
def c1Arena : Arena :=
  ((((Arena.new.mk_sort 0).1.mk_var 0).1.mk_var 1).1.mk_lam ⟨0, 0, false, .default⟩ 2).1

/-- C1.  Evaluating `substitute(Lam(x. Var 1), 0, Var 0)`: the replacement
`Var 0` is inserted under the binder WITHOUT shifting its free variables,
so the body becomes `Var 0` (id 1) — captured by the binder.  The
shift-correct capture-avoiding result would shift the replacement to
`Var 1` under the binder, leaving the term `Lam(x. Var 1)` (id 3)
unchanged. -/
theorem substitute_unshifted_capture :
    (substitute c1Arena 3 0 1).toOption.map (fun r => r.1.get r.2)
      = some (some (.lam ⟨0, 0, false, .default⟩ 1))
    ∧ c1Arena.get 3 = some (.lam ⟨0, 0, false, .default⟩ 2)
    ∧ c1Arena.get 2 = some (.var 1)
    ∧ c1Arena.get 1 = some (.var 0) := by
  refine ⟨?_, by decide, by decide, by decide⟩
  simp [c1Arena, substitute, Arena.new, Arena.mk_sort, Arena.mk_var, Arena.mk_lam,
    Arena.mk_app, Arena.intern, Arena.get, assocLookup, cachePush, findInBucket,
    termHash, natListMix, BinderInfo.code]
  exact ⟨_, _, rfl, rfl⟩

/-- Level arena giving the level ids used in the C3 scenario: id 1 is
`Param 0`, id 2 is `Const 1`. -/
def c3Levels : LevelArena := ⟨[.zero, .param 0, .const 1]⟩

/-- Environment for C3: symbol 7 is a reducible definition with universe
parameter list `[0]` and body `Sort(Param 0)` (term id 0). -/
def c3Env : Environment := ⟨[(7, ⟨7, [0], 0, some 0, Attributes.defaultA, .defn⟩)]⟩

/-- Arena for C3: id 0 = `Sort(Param 0)` (level id 1), id 1 =
`Const(7, [Const 1])` (level id 2). -/
def c3Arena : Arena := ((Arena.new.mk_sort 1).1.mk_const 7 [2]).1

/-- C3.  `whnf` on `Const(7, [Const 1])`, whose declaration is reducible
with universe parameters `[0]` and body `Sort(Param 0)`, returns the body
unchanged (term id 0, still `Sort(Param 0)`): the level arguments
`[Const 1]` are ignored and `Param 0` is never instantiated, where the
claim requires the whnf of the body with `Const 1` substituted for the
parameter, i.e. `Sort(Const 1)`. -/
theorem whnf_const_ignores_levels :
    (whnf 10 (Converter.with_fuel 10) c3Arena c3Env ⟨[]⟩ 1).toOption.map (fun r => r.2.2)
      = some 0
    ∧ c3Arena.get 1 = some (.const 7 [2])
    ∧ c3Arena.get 0 = some (.sort 1)
    ∧ c3Levels.get 1 = some (.param 0)
    ∧ c3Levels.get 2 = some (.const 1)
    ∧ (c3Env.get_decl 7).map (fun d => d.level_params) = some [0] := by
  refine ⟨by decide, by decide, by decide, by decide, by decide, by decide⟩

/-- Level arena for C4: id 1 = `Const 1`, id 2 = `Const 2`, id 3 =
`Max(Const 1, Const 2)`; ids 2 and 3 normalize to the same id. -/
def c4Levels : LevelArena := ⟨[.zero, .const 1, .const 2, .max 1 2]⟩

/-- Arena for C4: id 0 = `Sort(Max(Const 1, Const 2))` (level id 3),
id 1 = `Sort(Const 2)` (level id 2). -/
def c4Arena : Arena := ((Arena.new.mk_sort 3).1.mk_sort 2).1

/-- C4 counterexample.  `is_def_eq(Sort(Max(Const 1, Const 2)),
Sort(Const 2))` returns `false` although both level ids normalize to the
same id (`Const 2`): sort comparison uses raw LevelId equality, not
equality after normalization. -/
theorem sort_def_eq_not_normalized_counterexample :
    (isDefEq 10 (Converter.with_fuel 10) c4Arena ⟨[]⟩ ⟨[]⟩ 0 1).toOption.map (fun r => r.2.2)
      = some false
    ∧ c4Arena.get 0 = some (.sort 3)
    ∧ c4Arena.get 1 = some (.sort 2)
    ∧ c4Levels.get 3 = some (.max 1 2)
    ∧ c4Levels.get 2 = some (.const 2)
    ∧ (c4Levels.normalize 3).2 = (c4Levels.normalize 2).2 := by
  refine ⟨by decide, by decide, by decide, by decide, by decide, ?_⟩
  simp [c4Levels, LevelArena.normalize, LevelArena.get, LevelArena.intern,
    LevelArena.constant, LevelArena.max, Level.from_u32, firstIdx]

/-- Evaluation of `whnf` on a stored sort with a cache miss: one unit of
fuel is consumed, the arena is untouched, the term is returned and
memoized. -/
theorem whnf_sort_eval {cv : Converter} {A : Arena} {env : Environment} {ctx : Context}
    {t l : Nat} (hg : A.get t = some (.sort l)) (hfuel : cv.fuel ≠ 0)
    (hmiss : assocLookup cv.cache (t, ctx.len) = none) :
    whnf cv.fuel cv A env ctx t
      = .ok (⟨cv.fuel - 1, assocInsert cv.cache (t, ctx.len) t⟩, A, t) := by
  rcases hf : cv.fuel with _ | f
  · exact absurd hf hfuel
  · simp [whnf, hf, hmiss, hg]

/-- C4 amended.  On a duplicate-free arena, a fresh converter (empty
cache) with at least two units of fuel decides definitional equality of
two stored sorts by RAW LevelId equality: `is_def_eq(Sort(l1), Sort(l2))`
returns `Ok(l1 == l2)` — no level normalization is involved. -/
theorem sort_def_eq_raw_level_equality (cv : Converter) (A : Arena) (env : Environment)
    (ctx : Context) (t1 t2 l1 l2 gas : Nat)
    (hcache : cv.cache = []) (hfuel : 2 ≤ cv.fuel) (hgas : 2 ≤ gas)
    (h1 : A.get t1 = some (.sort l1)) (h2 : A.get t2 = some (.sort l2))
    (hnd : A.terms.Nodup) :
    ∃ cv2, isDefEq gas cv A env ctx t1 t2 = .ok (cv2, A, decide (l1 = l2)) := by
  rcases gas with _ | gas
  · omega
  rcases gas with _ | gas
  · omega
  by_cases he : t1 = t2
  · subst he
    rw [h1] at h2
    have hl : l1 = l2 := by simpa using h2
    subst hl
    exact ⟨cv, by simp [isDefEq]⟩
  · have hw1 : whnf cv.fuel cv A env ctx t1
        = .ok (⟨cv.fuel - 1, assocInsert cv.cache (t1, ctx.len) t1⟩, A, t1) :=
      whnf_sort_eval h1 (by omega) (by rw [hcache]; rfl)
    have hw2 : whnf (cv.fuel - 1) ⟨cv.fuel - 1, assocInsert cv.cache (t1, ctx.len) t1⟩
        A env ctx t2
        = .ok (⟨cv.fuel - 1 - 1,
            assocInsert (assocInsert cv.cache (t1, ctx.len) t1) (t2, ctx.len) t2⟩, A, t2) :=
      @whnf_sort_eval ⟨cv.fuel - 1, assocInsert cv.cache (t1, ctx.len) t1⟩ A env ctx t2 l2 h2
        (by show cv.fuel - 1 ≠ 0; omega)
        (by show assocLookup (assocInsert cv.cache (t1, ctx.len) t1) (t2, ctx.len) = none
            rw [hcache]
            simp [assocInsert, assocLookup, he])
    refine ⟨⟨cv.fuel - 1 - 1,
      assocInsert (assocInsert cv.cache (t1, ctx.len) t1) (t2, ctx.len) t2⟩, ?_⟩
    rw [isDefEq]
    simp only [if_neg he, hw1, hw2]
    rw [isDefEqWhnf]
    simp only [if_neg he, h1, h2]

/-- Witness for `sort_def_eq_raw_level_equality` at the C4 arena. -/
theorem sort_def_eq_raw_level_equality_witness :
    ∃ cv2, isDefEq 2 (Converter.with_fuel 2) c4Arena ⟨[]⟩ ⟨[]⟩ 0 1
      = .ok (cv2, c4Arena, decide ((3 : Nat) = 2)) :=
  sort_def_eq_raw_level_equality (Converter.with_fuel 2) c4Arena ⟨[]⟩ ⟨[]⟩ 0 1 3 2 2
    (by decide) (by decide) (by decide) (by decide) (by decide) (by decide)

/-! ## Unifier (src/leanr-core/src/unification.rs)

The unification pieces the occurs-check claim is about: the substitution
map, `apply_subst` (which resolves only a top-level metavariable chain),
`occurs_check` (which walks the term following assignments transitively)
and `solve_unify` (one `Unify` constraint).  These functions only read the
arena, so no arena state is threaded.  The source recursion through
assigned metavariables is unbounded (acyclicity is a consequence of the
occurs check, not enforced by types); `gas` makes the functions total
here, and every theorem supplies enough gas that the `gas = 0` branch is
never taken. -/

/-- `Substitution`: assignments of metavariables to terms. -/
structure Substitution where
  assignments : List (MetaVarId × TermId)
deriving DecidableEq

/-- `Substitution::new`. -/
def Substitution.new : Substitution := ⟨[]⟩

/-- `Substitution::lookup`. -/
def Substitution.lookup (U : Substitution) (m : Nat) : Option Nat :=
  assocLookup U.assignments m

/-- `Substitution::assign`. -/
def Substitution.assign (U : Substitution) (m t : Nat) : Substitution :=
  ⟨assocInsert U.assignments m t⟩

/-- `Substitution::is_assigned`. -/
def Substitution.is_assigned (U : Substitution) (m : Nat) : Bool :=
  (U.lookup m).isSome

/-- `Unifier::apply_subst`: resolve a metavariable through the current
assignments (recursively); any other head is returned unchanged. -/
def applySubst (gas : Nat) (U : Substitution) (A : Arena) (term : Nat) : Except Error Nat :=
  match gas with
  | 0 => .error (.internal "out of gas")
  | gas + 1 =>
    match A.get term with
    | none => .error (.internal "Invalid term ID")
    | some (.mvar m) =>
      match U.lookup m with
      | some assigned => applySubst gas U A assigned
      | none => .ok term
    | some _ => .ok term

/-- `Unifier::occurs_check`: does `mvar` occur in `term`, following
metavariable assignments transitively? -/
def occursCheck (gas : Nat) (U : Substitution) (A : Arena) (mvar : Nat) (term : Nat) :
    Except Error Bool :=
  match gas with
  | 0 => .error (.internal "out of gas")
  | gas + 1 =>
    match A.get term with
    | none => .error (.internal "Invalid term ID")
    | some (.mvar m) =>
      if m = mvar then .ok true
      else
        match U.lookup m with
        | some assigned => occursCheck gas U A mvar assigned
        | none => .ok false
    | some (.app f a) =>
      match occursCheck gas U A mvar f with
      | .error e => .error e
      | .ok inFunc =>
        match occursCheck gas U A mvar a with
        | .error e => .error e
        | .ok inArg => .ok (inFunc || inArg)
    | some (.lam b body) =>
      match occursCheck gas U A mvar b.ty with
      | .error e => .error e
      | .ok inTy =>
        match occursCheck gas U A mvar body with
        | .error e => .error e
        | .ok inBody => .ok (inTy || inBody)
    | some (.pi b body) =>
      match occursCheck gas U A mvar b.ty with
      | .error e => .error e
      | .ok inTy =>
        match occursCheck gas U A mvar body with
        | .error e => .error e
        | .ok inBody => .ok (inTy || inBody)
    | some (.letE b v body) =>
      match occursCheck gas U A mvar b.ty with
      | .error e => .error e
      | .ok inTy =>
        match occursCheck gas U A mvar v with
        | .error e => .error e
        | .ok inVal =>
          match occursCheck gas U A mvar body with
          | .error e => .error e
          | .ok inBody => .ok (inTy || inVal || inBody)
    | some (.sort _) | some (.const _ _) | some (.var _) | some (.lit _) => .ok false

/-- `Unifier::solve_unify`: one `Unify(t1, t2)` constraint.  TermId fast
path; apply the substitution to both sides; an unassigned metavariable on
either side is occurs-checked against the other and assigned; structural
recursion on equal shapes; `Sort`/`Var`/`Const` by id equality; anything
else is a `UnificationError`. -/
def solveUnify (gas : Nat) (U : Substitution) (A : Arena) (t1 t2 : Nat) :
    Except Error Substitution :=
  match gas with
  | 0 => .error (.internal "out of gas")
  | gas + 1 =>
    if t1 = t2 then .ok U
    else
      match applySubst gas U A t1 with
      | .error e => .error e
      | .ok s1 =>
        match applySubst gas U A t2 with
        | .error e => .error e
        | .ok s2 =>
          if s1 = s2 then .ok U
          else
            match A.get s1, A.get s2 with
            | none, _ => .error (.internal "Invalid term ID")
            | some _, none => .error (.internal "Invalid term ID")
            | some k1, some k2 =>
              match k1, k2 with
              | .mvar m, _ =>
                match U.lookup m with
                | none =>
                  match occursCheck gas U A m s2 with
                  | .error e => .error e
                  | .ok true => .error (.unificationError "Occurs check failed")
                  | .ok false => .ok (U.assign m s2)
                | some assigned => solveUnify gas U A assigned s2
              | _, .mvar m =>
                match U.lookup m with
                | none =>
                  match occursCheck gas U A m s1 with
                  | .error e => .error e
                  | .ok true => .error (.unificationError "Occurs check failed")
                  | .ok false => .ok (U.assign m s1)
                | some assigned => solveUnify gas U A s1 assigned
              | .app f1 a1, .app f2 a2 =>
                match solveUnify gas U A f1 f2 with
                | .error e => .error e
                | .ok U1 => solveUnify gas U1 A a1 a2
              | .lam b1 body1, .lam b2 body2 =>
                match solveUnify gas U A b1.ty b2.ty with
                | .error e => .error e
                | .ok U1 => solveUnify gas U1 A body1 body2
              | .pi b1 body1, .pi b2 body2 =>
                match solveUnify gas U A b1.ty b2.ty with
                | .error e => .error e
                | .ok U1 => solveUnify gas U1 A body1 body2
              | .sort l1, .sort l2 =>
                if l1 = l2 then .ok U else .error (.unificationError "Cannot unify")
              | .var i1, .var i2 =>
                if i1 = i2 then .ok U else .error (.unificationError "Cannot unify")
              | .const n1 ls1, .const n2 ls2 =>
                if n1 = n2 ∧ ls1 = ls2 then .ok U
                else .error (.unificationError "Cannot unify")
              | _, _ => .error (.unificationError "Cannot unify")

/-- Arena for the C5 counterexample: id 0 = `MVar 0`. -/
def c5Arena : Arena := (Arena.new.mk_mvar 0).1

/-- C5 counterexample.  Processing `Unify(MVar 0, MVar 0)` with metavar 0
unassigned succeeds via the TermId fast path without any occurs check or
assignment — even though `MVar 0` trivially occurs in the other side
(`occurs_check` returns `true` on it).  So `unify(MVar m, t)` does NOT
fail whenever m occurs in t after substitution: the reflexive case
succeeds. -/
theorem unify_mvar_self_succeeds :
    solveUnify 5 Substitution.new c5Arena 0 0 = .ok Substitution.new
    ∧ occursCheck 5 Substitution.new c5Arena 0 0 = .ok true
    ∧ c5Arena.get 0 = some (.mvar 0)
    ∧ Substitution.new.lookup 0 = none := by
  decide

/-- C5 amended.  When `solve_unify` processes `Unify(t1, t2)` whose sides
are distinct ids and remain distinct after applying the substitution, and
the (substituted) left side is an unassigned `MVar m` — or symmetrically
the right side is, the left being a non-metavariable — the outcome is
exactly the occurs-check gate: `UnificationError` if `m` occurs in the
other side (following assignments transitively), else the assignment
`m := other substituted side`. -/
theorem solve_unify_unassigned_mvar_occurs_gate (gas : Nat) (U : Substitution) (A : Arena)
    (t1 t2 s1 s2 m : Nat)
    (h1 : applySubst gas U A t1 = .ok s1) (h2 : applySubst gas U A t2 = .ok s2)
    (hne : t1 ≠ t2) (hs : s1 ≠ s2) (hm : U.lookup m = none) :
    (A.get s1 = some (.mvar m) → (∃ k2, A.get s2 = some k2) →
      solveUnify (gas + 1) U A t1 t2
        = match occursCheck gas U A m s2 with
          | .error e => .error e
          | .ok true => .error (.unificationError "Occurs check failed")
          | .ok false => .ok (U.assign m s2))
    ∧ ((∀ m2, A.get s1 ≠ some (.mvar m2)) → (∃ k1, A.get s1 = some k1) →
      A.get s2 = some (.mvar m) →
      solveUnify (gas + 1) U A t1 t2
        = match occursCheck gas U A m s1 with
          | .error e => .error e
          | .ok true => .error (.unificationError "Occurs check failed")
          | .ok false => .ok (U.assign m s1)) := by
  constructor
  · rintro hg1 ⟨k2, hg2⟩
    rw [solveUnify]
    simp only [if_neg hne, h1, h2, if_neg hs, hg1, hg2, hm]
  · rintro hmv ⟨k1, hg1⟩ hg2
    cases k1 with
    | mvar mm => exact absurd hg1 (hmv mm)
    | sort l =>
      rw [solveUnify]
      simp only [if_neg hne, h1, h2, if_neg hs, hg1, hg2, hm]
    | const n ls =>
      rw [solveUnify]
      simp only [if_neg hne, h1, h2, if_neg hs, hg1, hg2, hm]
    | var i =>
      rw [solveUnify]
      simp only [if_neg hne, h1, h2, if_neg hs, hg1, hg2, hm]
    | app f a =>
      rw [solveUnify]
      simp only [if_neg hne, h1, h2, if_neg hs, hg1, hg2, hm]
    | lam b body =>
      rw [solveUnify]
      simp only [if_neg hne, h1, h2, if_neg hs, hg1, hg2, hm]
    | pi b body =>
      rw [solveUnify]
      simp only [if_neg hne, h1, h2, if_neg hs, hg1, hg2, hm]
    | letE b v body =>
      rw [solveUnify]
      simp only [if_neg hne, h1, h2, if_neg hs, hg1, hg2, hm]
    | lit l =>
      rw [solveUnify]
      simp only [if_neg hne, h1, h2, if_neg hs, hg1, hg2, hm]

/-- Arena for the C5 witness: id 0 = `MVar 0`, id 1 = `Var 5`. -/
def c5WArena : Arena := ((Arena.new.mk_mvar 0).1.mk_var 5).1

/-- Witness for `solve_unify_unassigned_mvar_occurs_gate`: unifying
`MVar 0` with `Var 5` assigns the metavariable after a clear occurs
check. -/
theorem solve_unify_unassigned_mvar_occurs_gate_witness :
    solveUnify 6 Substitution.new c5WArena 0 1
      = match occursCheck 5 Substitution.new c5WArena 0 1 with
        | .error e => .error e
        | .ok true => .error (.unificationError "Occurs check failed")
        | .ok false => .ok (Substitution.new.assign 0 1) :=
  (solve_unify_unassigned_mvar_occurs_gate 5 Substitution.new c5WArena 0 1 0 1 0
    (by decide) (by decide) (by decide) (by decide) (by decide)).1
    (by decide) ⟨.var 5, by decide⟩

end LeanAgentic
